import Mathlib

/-!
Verification development for the Context-Engine MCP server core
(bounded expiring cache, validated file store, analysis orchestrator).

The TypeScript sources are shallowly embedded:

* JavaScript `Map` objects become association lists (`List (String × α)`)
  with `Map.set` / `Map.get` / `Map.delete` semantics (insertion order is
  preserved, setting an existing key updates the value in place).
* `Date.now()` and `new Date().toISOString()` become explicit clock
  parameters threaded through the operations.
* Fallible operations (`fs` calls, validation) become `Except`-returning
  functions; environmental I/O failure is modelled by a set of paths on
  which raw filesystem primitives fail.
* The external regex engine and the MD5 hash are opaque collaborators and
  become function parameters of the environment.
-/

namespace CE

/-! ### Association-list model of a JavaScript `Map`

JavaScript `Map` objects keep at most one binding per key, so the three
operations below are stated by structural recursion on the binding list
(`set` replaces the value in place, keeping the insertion position,
otherwise appends; `delete` removes the key's binding). -/

/-- `Map.get`: the value stored at `k`, if any. -/
def mapGet {α : Type} (m : List (String × α)) (k : String) : Option α :=
  match m with
  | [] => none
  | p :: t => if p.1 = k then some p.2 else mapGet t k

/-- `Map.set`: replace the value in place when the key is present
(insertion order kept), otherwise append the new binding. -/
def mapSet {α : Type} (m : List (String × α)) (k : String) (v : α) :
    List (String × α) :=
  match m with
  | [] => [(k, v)]
  | p :: t => if p.1 = k then (k, v) :: t else p :: mapSet t k v

/-- `Map.delete`: remove the binding for `k`. -/
def mapDelete {α : Type} (m : List (String × α)) (k : String) :
    List (String × α) :=
  match m with
  | [] => []
  | p :: t => if p.1 = k then mapDelete t k else p :: mapDelete t k

/-- The key list of a map, in insertion order. -/
def mapKeys {α : Type} (m : List (String × α)) : List String :=
  m.map (fun p => p.1)

theorem mapKeys_set {α : Type} (m : List (String × α)) (k : String) (v : α) :
    mapKeys (mapSet m k v) = if k ∈ mapKeys m then mapKeys m else mapKeys m ++ [k] := by
  induction m with
  | nil => simp [mapSet, mapKeys]
  | cons p t ih =>
    by_cases h : p.1 = k
    · simp [mapSet, mapKeys, h]
    · by_cases hmem : k ∈ mapKeys t
      · have hmem2 : k ∈ mapKeys (p :: t) := by
          simp only [mapKeys, List.map, List.mem_cons]
          exact Or.inr hmem
        simp only [mapSet, if_neg h, mapKeys, List.map] at *
        rw [ih]
        simp only [hmem, if_true]
        rw [if_pos hmem2]
      · have hmem2 : ¬ k ∈ mapKeys (p :: t) := by
          simp only [mapKeys, List.map, List.mem_cons]
          rintro (h1 | h1)
          · exact h h1.symm
          · exact hmem h1
        simp only [mapSet, if_neg h, mapKeys, List.map] at *
        rw [ih]
        simp only [hmem, if_false]
        rw [if_neg hmem2, List.cons_append]

theorem mapKeys_set_nodup {α : Type} (m : List (String × α)) (k : String) (v : α)
    (h : (mapKeys m).Nodup) : (mapKeys (mapSet m k v)).Nodup := by
  rw [mapKeys_set]
  by_cases hk : k ∈ mapKeys m
  · simpa [hk] using h
  · simp only [hk, if_false]
    rw [List.nodup_append]
    exact ⟨h, List.nodup_singleton k, by simpa using hk⟩

theorem mem_mapKeys_delete {α : Type} (m : List (String × α)) (k a : String) :
    a ∈ mapKeys (mapDelete m k) ↔ a ∈ mapKeys m ∧ a ≠ k := by
  induction m with
  | nil => simp [mapDelete, mapKeys]
  | cons p t ih =>
    by_cases h : p.1 = k
    · rw [mapDelete, if_pos h, ih]
      simp only [mapKeys, List.map_cons, List.mem_cons]
      constructor
      · rintro ⟨h1, h2⟩
        exact ⟨Or.inr h1, h2⟩
      · rintro ⟨h1 | h1, h2⟩
        · exact absurd (h1.trans h) h2
        · exact ⟨h1, h2⟩
    · rw [mapDelete, if_neg h, mapKeys, List.map_cons, List.mem_cons, mapKeys,
        List.map_cons, List.mem_cons]
      rw [mapKeys, mapKeys] at ih
      constructor
      · rintro (h1 | h1)
        · exact ⟨Or.inl h1, fun hc => h (h1 ▸ hc)⟩
        · obtain ⟨h2, h3⟩ := ih.mp h1
          exact ⟨Or.inr h2, h3⟩
      · rintro ⟨h1 | h1, h2⟩
        · exact Or.inl h1
        · exact Or.inr (ih.mpr ⟨h1, h2⟩)

theorem mapKeys_delete_nodup {α : Type} (m : List (String × α)) (k : String)
    (h : (mapKeys m).Nodup) : (mapKeys (mapDelete m k)).Nodup := by
  induction m with
  | nil => simp [mapDelete, mapKeys]
  | cons p t ih =>
    rw [mapKeys, List.map_cons, List.nodup_cons] at h
    by_cases hp : p.1 = k
    · rw [mapDelete, if_pos hp]
      exact ih h.2
    · rw [mapDelete, if_neg hp, mapKeys, List.map_cons, List.nodup_cons]
      refine ⟨fun hc => ?_, ih h.2⟩
      exact h.1 ((mem_mapKeys_delete t k p.1).mp hc).1

theorem mapGet_set_self {α : Type} (m : List (String × α)) (k : String) (v : α) :
    mapGet (mapSet m k v) k = some v := by
  induction m with
  | nil => simp [mapSet, mapGet]
  | cons p t ih =>
    by_cases h : p.1 = k
    · simp [mapSet, mapGet, h]
    · simp [mapSet, mapGet, h, ih]

theorem mapGet_set_other {α : Type} (m : List (String × α)) (k a : String) (v : α)
    (h : a ≠ k) : mapGet (mapSet m k v) a = mapGet m a := by
  have hka : ¬ k = a := fun hc => h hc.symm
  induction m with
  | nil => simp [mapSet, mapGet, hka]
  | cons p t ih =>
    by_cases hp : p.1 = k
    · have hpa : ¬ p.1 = a := fun hc => hka (hp ▸ hc)
      simp [mapSet, mapGet, hp, hka, hpa]
    · simp [mapSet, mapGet, hp, ih]

theorem mapGet_delete_self {α : Type} (m : List (String × α)) (k : String) :
    mapGet (mapDelete m k) k = none := by
  induction m with
  | nil => rfl
  | cons p t ih =>
    by_cases h : p.1 = k
    · simp [mapDelete, h, ih]
    · simp [mapDelete, mapGet, h, ih]

theorem mapGet_delete_other {α : Type} (m : List (String × α)) (k a : String)
    (h : a ≠ k) : mapGet (mapDelete m k) a = mapGet m a := by
  have hka : ¬ k = a := fun hc => h hc.symm
  induction m with
  | nil => rfl
  | cons p t ih =>
    by_cases hp : p.1 = k
    · simp [mapDelete, mapGet, hp, hka, ih]
    · simp [mapDelete, mapGet, hp, ih]

theorem mapGet_isSome_iff_mem {α : Type} (m : List (String × α)) (k : String) :
    (mapGet m k).isSome ↔ k ∈ mapKeys m := by
  induction m with
  | nil => simp [mapGet, mapKeys]
  | cons p t ih =>
    by_cases h : p.1 = k
    · simp [mapGet, mapKeys, h]
    · simp only [mapGet, if_neg h, mapKeys, List.map, List.mem_cons]
      rw [ih]
      constructor
      · intro hs
        exact Or.inr hs
      · rintro (h1 | h1)
        · exact absurd h1.symm h
        · exact h1

theorem mapGet_eq_none_iff {α : Type} (m : List (String × α)) (k : String) :
    mapGet m k = none ↔ ¬ k ∈ mapKeys m := by
  rw [← mapGet_isSome_iff_mem]
  cases mapGet m k <;> simp

/-- Deleting a present key from a map with `Nodup` keys shrinks it by one. -/
theorem length_mapDelete_of_mem {α : Type} (m : List (String × α)) (k : String)
    (hnd : (mapKeys m).Nodup) (hk : k ∈ mapKeys m) :
    (mapDelete m k).length = m.length - 1 := by
  induction m with
  | nil => simp [mapKeys] at hk
  | cons p t ih =>
    rw [mapKeys, List.map, List.nodup_cons] at hnd
    by_cases h : p.1 = k
    · have hpt : ∀ q ∈ t, q.1 ≠ k := by
        intro q hq hqk
        exact hnd.1 (by rw [h, ← hqk]; exact List.mem_map.mpr ⟨q, hq, rfl⟩)
      have hfix : mapDelete t k = t := by
        clear ih hk hnd
        induction t with
        | nil => rfl
        | cons q t2 ih2 =>
          rw [mapDelete, if_neg (hpt q (List.mem_cons_self q t2))]
          rw [ih2 (fun r hr => hpt r (List.mem_cons_of_mem q hr))]
      simp [mapDelete, h, hfix]
    · have h1 : k ∈ mapKeys t := by
        rcases List.mem_cons.mp hk with h2 | h2
        · exact absurd h2.symm h
        · exact h2
      have ht := ih hnd.2 h1
      rw [mapDelete, if_neg h, List.length_cons, List.length_cons, ht]
      have : 1 ≤ t.length := by
        rcases t with _ | ⟨q, t2⟩
        · simp [mapKeys] at h1
        · simp
      omega

theorem length_mapDelete_le {α : Type} (m : List (String × α)) (k : String) :
    (mapDelete m k).length ≤ m.length := by
  induction m with
  | nil => simp [mapDelete]
  | cons p t ih =>
    by_cases h : p.1 = k
    · rw [mapDelete, if_pos h]
      exact Nat.le_succ_of_le ih
    · rw [mapDelete, if_neg h, List.length_cons, List.length_cons]
      omega

theorem length_mapSet {α : Type} (m : List (String × α)) (k : String) (v : α) :
    (mapSet m k v).length ≤ m.length + 1 := by
  induction m with
  | nil => simp [mapSet]
  | cons p t ih =>
    by_cases h : p.1 = k
    · simp [mapSet, h]
    · rw [mapSet, if_neg h, List.length_cons, List.length_cons]
      omega

/-! ### The bounded expiring cache (`src/services/cache-manager.ts`) -/

/-- `CacheEntry` from `types/index.ts`; `expiresAt` is attached by `set`
only when a positive TTL is supplied. -/
structure CacheEntry (T : Type) where
  data : T
  timestamp : Nat
  expiresAt : Option Nat
  deriving DecidableEq

/-- The mutable state of one `CacheManager` instance: the entry map, the
LRU access-order map and the monotone access counter. -/
structure CacheMgr (T : Type) where
  cache : List (String × CacheEntry T)
  accessOrder : List (String × Nat)
  accessCounter : Nat
  deriving DecidableEq

/-- A freshly constructed `CacheManager`. -/
def cmInit (T : Type) : CacheMgr T :=
  { cache := [], accessOrder := [], accessCounter := 0 }

/-- Is the entry expired at time `now`? (`entry.expiresAt && Date.now() > entry.expiresAt`). -/
def entryExpired {T : Type} (now : Nat) (e : CacheEntry T) : Bool :=
  match e.expiresAt with
  | some t => t < now
  | none => false

/-- `CacheManager.delete`: removes the key from both maps. -/
def cmDelete {T : Type} (c : CacheMgr T) (key : String) : CacheMgr T :=
  { c with cache := mapDelete c.cache key, accessOrder := mapDelete c.accessOrder key }

/-- The access-order entries sorted ascending by rank
(`Array.from(this.accessOrder.entries()).sort(([,a],[,b]) => a - b)`). -/
def sortedByAccess {T : Type} (c : CacheMgr T) : List (String × Nat) :=
  c.accessOrder.mergeSort (fun a b => a.2 ≤ b.2)

/-- `Math.floor(maxSize * 0.1) || 1`. -/
def evictCount (maxSize : Nat) : Nat :=
  if maxSize / 10 = 0 then 1 else maxSize / 10

/-- `CacheManager.enforceMaxSize`: when the cache is at or above `maxSize`,
delete the least-recently-used `evictCount maxSize` keys. -/
def enforceMaxSize {T : Type} (maxSize : Nat) (c : CacheMgr T) : CacheMgr T :=
  if maxSize ≤ c.cache.length then
    ((sortedByAccess c).take (evictCount maxSize)).foldl
      (fun acc kv => cmDelete acc kv.1) c
  else
    c

/-- `CacheManager.set`: build the entry (attaching `expiresAt` only for a
truthy positive TTL), enforce the size bound, then store the entry and
refresh the key's access rank. -/
def cmSet {T : Type} (maxSize now : Nat) (c : CacheMgr T) (key : String)
    (value : T) (ttlMs : Option Int) : CacheMgr T :=
  let expiresAt : Option Nat :=
    match ttlMs with
    | some t => if 0 < t then some (now + t.toNat) else none
    | none => none
  let entry : CacheEntry T := { data := value, timestamp := now, expiresAt := expiresAt }
  let c1 := enforceMaxSize maxSize c
  { cache := mapSet c1.cache key entry,
    accessOrder := mapSet c1.accessOrder key (c1.accessCounter + 1),
    accessCounter := c1.accessCounter + 1 }

/-- `CacheManager.get`: miss on absent key; lazily delete and miss on an
expired entry; on a live hit bump the access rank and return the value. -/
def cmGet {T : Type} (now : Nat) (c : CacheMgr T) (key : String) :
    Option T × CacheMgr T :=
  match mapGet c.cache key with
  | none => (none, c)
  | some entry =>
    if entryExpired now entry then
      (none, cmDelete c key)
    else
      (some entry.data,
       { c with accessOrder := mapSet c.accessOrder key (c.accessCounter + 1),
                accessCounter := c.accessCounter + 1 })

/-- `CacheManager.has`: like `get` (including the lazy deletion of an
expired entry) but without bumping the access rank. -/
def cmHas {T : Type} (now : Nat) (c : CacheMgr T) (key : String) :
    Bool × CacheMgr T :=
  match mapGet c.cache key with
  | none => (false, c)
  | some entry =>
    if entryExpired now entry then
      (false, cmDelete c key)
    else
      (true, c)

/-- `CacheManager.clear`. -/
def cmClear {T : Type} (_c : CacheMgr T) : CacheMgr T :=
  cmInit T

/-- `CacheManager.cleanup`: delete every expired entry. The source
iterates over the entry map deleting the current key, which removes
exactly the expired bindings. -/
def cmCleanup {T : Type} (now : Nat) (c : CacheMgr T) : CacheMgr T :=
  (c.cache.filter (fun p => entryExpired now p.2)).foldl
    (fun acc kv => cmDelete acc kv.1) c

/-- The number of live (non-expired) entries at time `now`. -/
def liveCount {T : Type} (now : Nat) (c : CacheMgr T) : Nat :=
  (c.cache.filter (fun p => ¬ entryExpired now p.2)).length

/-- One client-visible cache operation, tagged with the time at which it
runs (`Date.now()` at the call). -/
inductive CacheOp (T : Type) where
  | set (key : String) (value : T) (ttlMs : Option Int) (now : Nat)
  | get (key : String) (now : Nat)
  | has (key : String) (now : Nat)
  | del (key : String)
  | clear
  | cleanup (now : Nat)

/-- Run one operation, discarding the returned value. -/
def runOp {T : Type} (maxSize : Nat) (c : CacheMgr T) : CacheOp T → CacheMgr T
  | CacheOp.set key value ttlMs now => cmSet maxSize now c key value ttlMs
  | CacheOp.get key now => (cmGet now c key).2
  | CacheOp.has key now => (cmHas now c key).2
  | CacheOp.del key => cmDelete c key
  | CacheOp.clear => cmClear c
  | CacheOp.cleanup now => cmCleanup now c

/-- Run a sequence of operations from a given state. -/
def runOps {T : Type} (maxSize : Nat) (c : CacheMgr T) (ops : List (CacheOp T)) :
    CacheMgr T :=
  ops.foldl (runOp maxSize) c

/-- Well-formedness: the two maps track exactly the same keys, without
duplicates.  Holds for every reachable state (see `runOp_preserves`). -/
def CacheWF {T : Type} (c : CacheMgr T) : Prop :=
  (mapKeys c.cache).Nodup ∧ mapKeys c.cache = mapKeys c.accessOrder

instance {T : Type} (c : CacheMgr T) : Decidable (CacheWF c) := by
  unfold CacheWF
  infer_instance

/-- Removal of every occurrence of `k`, as performed on key lists by
`mapDelete`. -/
def listRemoveAll (l : List String) (k : String) : List String :=
  match l with
  | [] => []
  | a :: t => if a = k then listRemoveAll t k else a :: listRemoveAll t k

theorem mapKeys_cons {α : Type} (p : String × α) (t : List (String × α)) :
    mapKeys (p :: t) = p.1 :: mapKeys t := rfl

theorem mapKeys_mapDelete {α : Type} (m : List (String × α)) (k : String) :
    mapKeys (mapDelete m k) = listRemoveAll (mapKeys m) k := by
  induction m with
  | nil => rfl
  | cons p t ih =>
    by_cases h : p.1 = k
    · rw [mapDelete, if_pos h, mapKeys_cons, listRemoveAll, if_pos h, ih]
    · rw [mapDelete, if_neg h, mapKeys_cons, mapKeys_cons, listRemoveAll, if_neg h, ih]

theorem cmDelete_WF {T : Type} (c : CacheMgr T) (k : String) (h : CacheWF c) :
    CacheWF (cmDelete c k) := by
  obtain ⟨h1, h2⟩ := h
  refine ⟨mapKeys_delete_nodup _ _ h1, ?_⟩
  show mapKeys (mapDelete c.cache k) = mapKeys (mapDelete c.accessOrder k)
  rw [mapKeys_mapDelete, mapKeys_mapDelete, h2]

theorem foldl_cmDelete_WF {T : Type} {β : Type} (f : β → String) (V : List β)
    (c : CacheMgr T) (h : CacheWF c) :
    CacheWF (V.foldl (fun acc kv => cmDelete acc (f kv)) c) := by
  induction V generalizing c with
  | nil => exact h
  | cons p t ih => exact ih (cmDelete c (f p)) (cmDelete_WF c (f p) h)

theorem foldl_cmDelete_length_le {T : Type} {β : Type} (f : β → String) (V : List β)
    (c : CacheMgr T) :
    (V.foldl (fun acc kv => cmDelete acc (f kv)) c).cache.length ≤ c.cache.length := by
  induction V generalizing c with
  | nil => exact Nat.le_refl _
  | cons p t ih =>
    exact Nat.le_trans (ih (cmDelete c (f p))) (length_mapDelete_le _ _)

theorem foldl_cmDelete_keys_subset {T : Type} {β : Type} (f : β → String)
    (V : List β) (c : CacheMgr T) (a : String)
    (h : a ∈ mapKeys (V.foldl (fun acc kv => cmDelete acc (f kv)) c).cache) :
    a ∈ mapKeys c.cache := by
  induction V generalizing c with
  | nil => exact h
  | cons p t ih =>
    have := ih (cmDelete c (f p)) h
    exact ((mem_mapKeys_delete c.cache (f p) a).mp this).1

theorem foldl_cmDelete_removes {T : Type} {β : Type} (f : β → String) (V : List β)
    (c : CacheMgr T) (p : β) (hp : p ∈ V) :
    ¬ f p ∈ mapKeys (V.foldl (fun acc kv => cmDelete acc (f kv)) c).cache := by
  induction V generalizing c with
  | nil => exact absurd hp (List.not_mem_nil p)
  | cons q t ih =>
    rcases List.mem_cons.mp hp with h1 | h1
    · intro hc
      have := foldl_cmDelete_keys_subset f t (cmDelete c (f q)) (f p) hc
      rw [h1] at this
      exact ((mem_mapKeys_delete c.cache (f q) (f q)).mp this).2 rfl
    · exact ih (cmDelete c (f q)) h1

theorem foldl_cmDelete_get_other {T : Type} {β : Type} (f : β → String)
    (V : List β) (c : CacheMgr T) (k : String) (h : ∀ p ∈ V, f p ≠ k) :
    mapGet (V.foldl (fun acc kv => cmDelete acc (f kv)) c).cache k = mapGet c.cache k := by
  induction V generalizing c with
  | nil => rfl
  | cons p t ih =>
    rw [List.foldl_cons,
      ih (cmDelete c (f p)) (fun q hq => h q (List.mem_cons_of_mem p hq))]
    show mapGet (mapDelete c.cache (f p)) k = mapGet c.cache k
    exact mapGet_delete_other c.cache (f p) k
      (fun hc => h p (List.mem_cons_self p t) hc.symm)

/-- Deleting distinct keys that are all present removes exactly as many
entries as there are keys. -/
theorem foldl_cmDelete_length_exact {T : Type} (V : List (String × Nat))
    (c : CacheMgr T) (hwf : CacheWF c)
    (hnd : (V.map (fun p => p.1)).Nodup)
    (hmem : ∀ p ∈ V, p.1 ∈ mapKeys c.cache) :
    (V.foldl (fun acc kv => cmDelete acc kv.1) c).cache.length =
      c.cache.length - V.length := by
  induction V generalizing c with
  | nil => simp
  | cons p t ih =>
    rw [List.map_cons, List.nodup_cons] at hnd
    have hp : p.1 ∈ mapKeys c.cache := hmem p (List.mem_cons_self p t)
    have hlen : (cmDelete c p.1).cache.length = c.cache.length - 1 :=
      length_mapDelete_of_mem c.cache p.1 hwf.1 hp
    have hb : 1 ≤ c.cache.length := by
      by_contra hb
      have : c.cache = [] := by
        cases hcc : c.cache with
        | nil => rfl
        | cons x t2 => rw [hcc] at hb; simp at hb
      rw [this] at hp
      simp [mapKeys] at hp
    have hrec := ih (cmDelete c p.1) (cmDelete_WF c p.1 hwf) hnd.2 ?later
    case later =>
      intro q hq
      refine (mem_mapKeys_delete c.cache p.1 q.1).mpr
        ⟨hmem q (List.mem_cons_of_mem p hq), fun hc => ?_⟩
      exact hnd.1 (hc ▸ List.mem_map.mpr ⟨q, hq, rfl⟩)
    rw [List.foldl_cons, hrec, hlen, List.length_cons]
    omega

theorem enforceMaxSize_WF {T : Type} (maxSize : Nat) (c : CacheMgr T)
    (h : CacheWF c) : CacheWF (enforceMaxSize maxSize c) := by
  unfold enforceMaxSize
  by_cases hc : maxSize ≤ c.cache.length
  · rw [if_pos hc]
    exact foldl_cmDelete_WF (fun kv : String × Nat => kv.1) _ c h
  · rw [if_neg hc]
    exact h

theorem sortedByAccess_length {T : Type} (c : CacheMgr T) (h : CacheWF c) :
    (sortedByAccess c).length = c.cache.length := by
  unfold sortedByAccess
  rw [(List.mergeSort_perm c.accessOrder (fun a b => a.2 ≤ b.2)).length_eq]
  have h1 : (mapKeys c.cache).length = (mapKeys c.accessOrder).length := by rw [h.2]
  simpa [mapKeys] using h1.symm

theorem sortedByAccess_keys_nodup {T : Type} (c : CacheMgr T) (h : CacheWF c) :
    ((sortedByAccess c).map (fun p => p.1)).Nodup := by
  have hperm : (sortedByAccess c).Perm c.accessOrder :=
    List.mergeSort_perm c.accessOrder (fun a b => a.2 ≤ b.2)
  have h2 : (c.accessOrder.map (fun p : String × Nat => p.1)).Nodup := by
    have h3 := h.2 ▸ h.1
    simpa [mapKeys] using h3
  exact ((hperm.map (fun p : String × Nat => p.1)).nodup_iff).mpr h2

theorem sortedByAccess_mem_keys {T : Type} (c : CacheMgr T) (h : CacheWF c)
    (p : String × Nat) (hp : p ∈ sortedByAccess c) : p.1 ∈ mapKeys c.cache := by
  have hperm : (sortedByAccess c).Perm c.accessOrder :=
    List.mergeSort_perm c.accessOrder (fun a b => a.2 ≤ b.2)
  have := hperm.mem_iff.mp hp
  rw [h.2]
  exact List.mem_map.mpr ⟨p, this, rfl⟩

/-- Size accounting for `enforceMaxSize` on a well-formed cache at or over
the bound: exactly `min (evictCount maxSize) size` entries are deleted. -/
theorem enforceMaxSize_length {T : Type} (maxSize : Nat) (c : CacheMgr T)
    (hwf : CacheWF c) (hfull : maxSize ≤ c.cache.length) :
    (enforceMaxSize maxSize c).cache.length =
      c.cache.length - min (evictCount maxSize) c.cache.length := by
  unfold enforceMaxSize
  rw [if_pos hfull]
  have hnd : (((sortedByAccess c).take (evictCount maxSize)).map (fun p => p.1)).Nodup := by
    rw [List.map_take]
    exact List.Nodup.sublist (List.take_sublist _ _) (sortedByAccess_keys_nodup c hwf)
  have hmem : ∀ p ∈ (sortedByAccess c).take (evictCount maxSize), p.1 ∈ mapKeys c.cache := by
    intro p hp
    exact sortedByAccess_mem_keys c hwf p (List.mem_of_mem_take hp)
  rw [foldl_cmDelete_length_exact _ c hwf hnd hmem]
  rw [List.length_take, sortedByAccess_length c hwf]

theorem liveCount_le_length {T : Type} (now : Nat) (c : CacheMgr T) :
    liveCount now c ≤ c.cache.length :=
  List.length_filter_le _ _

/-- Every cache operation preserves well-formedness and (for `maxSize ≥ 1`)
the size bound. -/
theorem runOp_preserves {T : Type} (maxSize : Nat) (h1 : 1 ≤ maxSize)
    (c : CacheMgr T) (op : CacheOp T)
    (h : CacheWF c ∧ c.cache.length ≤ maxSize) :
    CacheWF (runOp maxSize c op) ∧ (runOp maxSize c op).cache.length ≤ maxSize := by
  obtain ⟨hwf, hlen⟩ := h
  cases op with
  | set key value ttlMs now =>
    show CacheWF (cmSet maxSize now c key value ttlMs) ∧ _
    unfold cmSet
    set c1 := enforceMaxSize maxSize c with hc1
    have hwf1 : CacheWF c1 := enforceMaxSize_WF maxSize c hwf
    have hlen1 : c1.cache.length + 1 ≤ maxSize ∨ (maxSize ≤ c.cache.length → False) := by
      by_cases hfull : maxSize ≤ c.cache.length
      · left
        rw [hc1, enforceMaxSize_length maxSize c hwf hfull]
        have hev : 1 ≤ evictCount maxSize := by
          unfold evictCount
          by_cases hz : maxSize / 10 = 0
          · rw [if_pos hz]
          · rw [if_neg hz]; omega
        have : 1 ≤ min (evictCount maxSize) c.cache.length :=
          le_min hev (Nat.le_trans h1 hfull)
        omega
      · right; exact fun hc => hfull hc
    constructor
    · constructor
      · exact mapKeys_set_nodup _ _ _ hwf1.1
      · show mapKeys (mapSet c1.cache key _) = mapKeys (mapSet c1.accessOrder key _)
        rw [mapKeys_set, mapKeys_set, hwf1.2]
    · show (mapSet c1.cache key _).length ≤ maxSize
      refine Nat.le_trans (length_mapSet _ _ _) ?_
      rcases hlen1 with h2 | h2
      · exact h2
      · have hsmall : c.cache.length < maxSize := by
          by_contra hc
          exact h2 (Nat.le_of_not_lt hc)
        have : c1 = c := by
          rw [hc1]
          unfold enforceMaxSize
          rw [if_neg (Nat.not_le_of_lt hsmall)]
        rw [this]
        omega
  | get key now =>
    show CacheWF (cmGet now c key).2 ∧ ((cmGet now c key).2).cache.length ≤ maxSize
    unfold cmGet
    cases hget : mapGet c.cache key with
    | none => exact ⟨hwf, hlen⟩
    | some entry =>
      by_cases hexp : entryExpired now entry
      · simp only [hexp, if_true]
        exact ⟨cmDelete_WF c key hwf,
          Nat.le_trans (length_mapDelete_le _ _) hlen⟩
      · simp only [hexp, if_false]
        refine ⟨⟨hwf.1, ?_⟩, hlen⟩
        show mapKeys c.cache = mapKeys (mapSet c.accessOrder key _)
        have hk : key ∈ mapKeys c.accessOrder := by
          rw [← hwf.2]
          exact (mapGet_isSome_iff_mem c.cache key).mp (by rw [hget]; rfl)
        rw [mapKeys_set, if_pos hk, hwf.2]
  | has key now =>
    show CacheWF (cmHas now c key).2 ∧ ((cmHas now c key).2).cache.length ≤ maxSize
    unfold cmHas
    cases hget : mapGet c.cache key with
    | none => exact ⟨hwf, hlen⟩
    | some entry =>
      by_cases hexp : entryExpired now entry
      · simp only [hexp, if_true]
        exact ⟨cmDelete_WF c key hwf,
          Nat.le_trans (length_mapDelete_le _ _) hlen⟩
      · simp only [hexp, if_false]
        exact ⟨hwf, hlen⟩
  | del key =>
    exact ⟨cmDelete_WF c key hwf, Nat.le_trans (length_mapDelete_le _ _) hlen⟩
  | clear =>
    refine ⟨⟨List.nodup_nil, rfl⟩, ?_⟩
    show (cmClear c).cache.length ≤ maxSize
    simp [cmClear, cmInit]
  | cleanup now =>
    show CacheWF (cmCleanup now c) ∧ (cmCleanup now c).cache.length ≤ maxSize
    unfold cmCleanup
    exact ⟨foldl_cmDelete_WF (fun kv : String × CacheEntry T => kv.1) _ c hwf,
      Nat.le_trans (foldl_cmDelete_length_le (fun kv : String × CacheEntry T => kv.1) _ c) hlen⟩

theorem runOps_preserves {T : Type} (maxSize : Nat) (h1 : 1 ≤ maxSize)
    (c : CacheMgr T) (ops : List (CacheOp T))
    (h : CacheWF c ∧ c.cache.length ≤ maxSize) :
    CacheWF (runOps maxSize c ops) ∧ (runOps maxSize c ops).cache.length ≤ maxSize := by
  induction ops generalizing c with
  | nil => exact h
  | cons op t ih =>
    exact ih (runOp maxSize c op) (runOp_preserves maxSize h1 c op h)

/-- On a map with `Nodup` keys, a binding determines the lookup result. -/
theorem mapGet_of_mem_nodup {α : Type} (m : List (String × α)) (k : String) (v : α)
    (hnd : (mapKeys m).Nodup) (h : (k, v) ∈ m) : mapGet m k = some v := by
  induction m with
  | nil => exact absurd h (List.not_mem_nil _)
  | cons p t ih =>
    rw [mapKeys_cons, List.nodup_cons] at hnd
    rcases List.mem_cons.mp h with h1 | h1
    · rw [mapGet, if_pos (by rw [← h1])]
      rw [← h1]
    · by_cases hp : p.1 = k
      · exfalso
        exact hnd.1 (hp ▸ List.mem_map.mpr ⟨(k, v), h1, hp ▸ rfl⟩)
      · rw [mapGet, if_neg hp]
        exact ih hnd.2 h1

/-- C2: for every sequence of cache operations with `maxSize ≥ 1`, the
live (non-expired) entry count stays within `maxSize`; and whenever a
well-formed cache is at or over the bound, `enforceMaxSize` evicts
exactly `min (evictCount maxSize) size` entries — at least one — before
the new entry is admitted by `set`. -/
theorem cache_size_bound (T : Type) (maxSize now : Nat) (ops : List (CacheOp T))
    (h1 : 1 ≤ maxSize) :
    liveCount now (runOps maxSize (cmInit T) ops) ≤ maxSize
    ∧ (∀ c : CacheMgr T, CacheWF c → maxSize ≤ c.cache.length →
        (enforceMaxSize maxSize c).cache.length
            + min (evictCount maxSize) c.cache.length = c.cache.length
        ∧ 1 ≤ min (evictCount maxSize) c.cache.length) := by
  constructor
  · have hinit : CacheWF (cmInit T) ∧ (cmInit T).cache.length ≤ maxSize := by
      refine ⟨⟨List.nodup_nil, rfl⟩, ?_⟩
      show ([] : List (String × CacheEntry T)).length ≤ maxSize
      simp
    have := runOps_preserves maxSize h1 (cmInit T) ops hinit
    exact Nat.le_trans (liveCount_le_length now _) this.2
  · intro c hwf hfull
    have hlen := enforceMaxSize_length maxSize c hwf hfull
    have hmin : min (evictCount maxSize) c.cache.length ≤ c.cache.length :=
      Nat.min_le_right _ _
    have hev : 1 ≤ evictCount maxSize := by
      unfold evictCount
      by_cases hz : maxSize / 10 = 0
      · rw [if_pos hz]
      · rw [if_neg hz]; omega
    have h2 : 1 ≤ min (evictCount maxSize) c.cache.length :=
      le_min hev (Nat.le_trans h1 hfull)
    exact ⟨by omega, h2⟩

theorem cache_size_bound_witness :
    1 ≤ 2
    ∧ liveCount 100 (runOps 2 (cmInit Nat)
        [CacheOp.set "a" 0 none 1, CacheOp.set "b" 0 none 2,
         CacheOp.set "c" 0 none 3]) ≤ 2 :=
  ⟨by decide,
   (cache_size_bound Nat 2 100
     [CacheOp.set "a" 0 none 1, CacheOp.set "b" 0 none 2,
      CacheOp.set "c" 0 none 3] (by decide)).1⟩

/-- C7: a cache entry whose `expiresAt` has passed is treated as a miss
and lazily removed by both `get` and `has`; consequently a `set` with a
positive TTL followed by a `get`/`has` strictly after the TTL has
elapsed is a miss. -/
theorem cache_lazy_expiry (T : Type) :
    (∀ (c : CacheMgr T) (k : String) (e : CacheEntry T) (t now : Nat),
        mapGet c.cache k = some e → e.expiresAt = some t → t < now →
          (cmGet now c k).1 = none
        ∧ mapGet (cmGet now c k).2.cache k = none
        ∧ (cmHas now c k).1 = false
        ∧ mapGet (cmHas now c k).2.cache k = none)
    ∧ (∀ (maxSize now now2 : Nat) (c : CacheMgr T) (k : String) (v : T) (ttl : Int),
        0 < ttl → now + ttl.toNat < now2 →
          (cmGet now2 (cmSet maxSize now c k v (some ttl)) k).1 = none
        ∧ (cmHas now2 (cmSet maxSize now c k v (some ttl)) k).1 = false
        ∧ mapGet (cmGet now2 (cmSet maxSize now c k v (some ttl)) k).2.cache k = none) := by
  have part1 : ∀ (c : CacheMgr T) (k : String) (e : CacheEntry T) (t now : Nat),
      mapGet c.cache k = some e → e.expiresAt = some t → t < now →
        (cmGet now c k).1 = none
      ∧ mapGet (cmGet now c k).2.cache k = none
      ∧ (cmHas now c k).1 = false
      ∧ mapGet (cmHas now c k).2.cache k = none := by
    intro c k e t now hget he hlt
    have hexp : entryExpired now e = true := by
      unfold entryExpired
      rw [he]
      simpa using hlt
    have hg : cmGet now c k = (none, cmDelete c k) := by
      simp [cmGet, hget, hexp]
    have hh : cmHas now c k = (false, cmDelete c k) := by
      simp [cmHas, hget, hexp]
    rw [hg, hh]
    exact ⟨rfl, mapGet_delete_self _ _, rfl, mapGet_delete_self _ _⟩
  refine ⟨part1, ?_⟩
  intro maxSize now now2 c k v ttl hpos hlate
  have hget : mapGet (cmSet maxSize now c k v (some ttl)).cache k =
      some { data := v, timestamp := now, expiresAt := some (now + ttl.toNat) } := by
    unfold cmSet
    simp only [if_pos hpos]
    exact mapGet_set_self _ _ _
  have := part1 (cmSet maxSize now c k v (some ttl)) k
    { data := v, timestamp := now, expiresAt := some (now + ttl.toNat) }
    (now + ttl.toNat) now2 hget rfl hlate
  exact ⟨this.1, this.2.2.1, this.2.1⟩

/-- Concrete state for the C7 witness: one entry under key `"k"` that
expired at time 10. -/
def lazyExpiryCacheW : CacheMgr Nat :=
  { cache := [("k", { data := 7, timestamp := 0, expiresAt := some 10 })],
    accessOrder := [("k", 1)],
    accessCounter := 1 }

theorem cache_lazy_expiry_witness :
    (cmGet 100 lazyExpiryCacheW "k").1 = none
    ∧ (cmHas 100 lazyExpiryCacheW "k").1 = false
    ∧ (cmGet 70 (cmSet 10 5 (cmInit Nat) "k" 42 (some 50)) "k").1 = none :=
  ⟨((cache_lazy_expiry Nat).1 lazyExpiryCacheW "k"
      { data := 7, timestamp := 0, expiresAt := some 10 } 10 100
      (by decide) (by decide) (by decide)).1,
   ((cache_lazy_expiry Nat).1 lazyExpiryCacheW "k"
      { data := 7, timestamp := 0, expiresAt := some 10 } 10 100
      (by decide) (by decide) (by decide)).2.2.1,
   ((cache_lazy_expiry Nat).2 10 5 70 (cmInit Nat) "k" 42 50
      (by decide) (by decide)).1⟩

/-- C10: a `set` with an absent, zero, or negative TTL stores an entry
with no expiration timestamp; such an entry is never treated as expired:
`get` hits it and keeps it, `has` answers true without changing the
state, and `cleanup` does not remove it. -/
theorem cache_zero_ttl_immortal (T : Type) :
    (∀ (maxSize now : Nat) (c : CacheMgr T) (k : String) (v : T) (ttl : Option Int),
        (ttl = none ∨ ∃ t, ttl = some t ∧ t ≤ 0) →
          mapGet (cmSet maxSize now c k v ttl).cache k =
            some { data := v, timestamp := now, expiresAt := none })
    ∧ (∀ (now : Nat) (c : CacheMgr T) (k : String) (e : CacheEntry T),
        mapGet c.cache k = some e → e.expiresAt = none →
          (cmGet now c k).1 = some e.data
        ∧ mapGet (cmGet now c k).2.cache k = some e
        ∧ cmHas now c k = (true, c)
        ∧ ((mapKeys c.cache).Nodup →
            mapGet (cmCleanup now c).cache k = some e)) := by
  constructor
  · intro maxSize now c k v ttl httl
    unfold cmSet
    rcases httl with h | ⟨t, ht, hle⟩
    · rw [h]
      exact mapGet_set_self _ _ _
    · rw [ht]
      simp only [if_neg (by omega : ¬ (0:Int) < t)]
      exact mapGet_set_self _ _ _
  · intro now c k e hget he
    have hexp : entryExpired now e = false := by
      unfold entryExpired
      rw [he]
    have hg : cmGet now c k =
        (some e.data,
         { c with accessOrder := mapSet c.accessOrder k (c.accessCounter + 1),
                  accessCounter := c.accessCounter + 1 }) := by
      simp [cmGet, hget, hexp]
    have hh : cmHas now c k = (true, c) := by
      simp [cmHas, hget, hexp]
    refine ⟨by rw [hg], by rw [hg]; exact hget, hh, ?_⟩
    intro hnd
    unfold cmCleanup
    rw [foldl_cmDelete_get_other (fun kv : String × CacheEntry T => kv.1) _ c k ?keys]
    case keys =>
      intro p hp hpk
      have hpmem : p ∈ c.cache := (List.mem_filter.mp hp).1
      have hpexp : entryExpired now p.2 = true := by
        simpa using (List.mem_filter.mp hp).2
      have hpk2 : p.1 = k := hpk
      have : mapGet c.cache p.1 = some p.2 := mapGet_of_mem_nodup c.cache p.1 p.2 hnd hpmem
      rw [hpk2, hget] at this
      have h2 : e = p.2 := by injection this
      rw [← h2, hexp] at hpexp
      exact Bool.false_ne_true hpexp
    exact hget

/-- Concrete state for the C10 witness: one immortal entry under `"k"`. -/
def immortalCacheW : CacheMgr Nat :=
  { cache := [("k", { data := 9, timestamp := 3, expiresAt := none })],
    accessOrder := [("k", 1)],
    accessCounter := 1 }

theorem cache_zero_ttl_immortal_witness :
    mapGet (cmSet 10 4 (cmInit Nat) "z" 5 (some 0)).cache "z" =
      some { data := 5, timestamp := 4, expiresAt := none }
    ∧ (cmGet 1000 immortalCacheW "k").1 = some 9
    ∧ cmHas 1000 immortalCacheW "k" = (true, immortalCacheW)
    ∧ mapGet (cmCleanup 1000 immortalCacheW).cache "k" =
        some { data := 9, timestamp := 3, expiresAt := none } :=
  ⟨(cache_zero_ttl_immortal Nat).1 10 4 (cmInit Nat) "z" 5 (some 0)
      (Or.inr ⟨0, rfl, by decide⟩),
   ((cache_zero_ttl_immortal Nat).2 1000 immortalCacheW "k"
      { data := 9, timestamp := 3, expiresAt := none } (by decide) rfl).1,
   ((cache_zero_ttl_immortal Nat).2 1000 immortalCacheW "k"
      { data := 9, timestamp := 3, expiresAt := none } (by decide) rfl).2.2.1,
   ((cache_zero_ttl_immortal Nat).2 1000 immortalCacheW "k"
      { data := 9, timestamp := 3, expiresAt := none } (by decide) rfl).2.2.2
      (by decide)⟩

/-- C8: with a well-formed cache at capacity, the eviction performed by
the next `set` removes exactly the `min (evictCount maxSize) size`
lowest-ranked access-order entries: a strictly less recently used
present key is evicted whenever a more recently used one is, every
victim rank is at most every survivor rank, and every victim key is
absent from the cache after `enforceMaxSize`. -/
theorem cache_lru_eviction_order (T : Type) (c : CacheMgr T) (maxSize : Nat)
    (kA kB : String) (rA rB : Nat) (hwf : CacheWF c)
    (hfull : maxSize ≤ c.cache.length)
    (hA : (kA, rA) ∈ c.accessOrder) (hB : (kB, rB) ∈ c.accessOrder)
    (hlt : rA < rB) :
    ((kB, rB) ∈ (sortedByAccess c).take (evictCount maxSize) →
      (kA, rA) ∈ (sortedByAccess c).take (evictCount maxSize))
    ∧ ((sortedByAccess c).take (evictCount maxSize)).length
        = min (evictCount maxSize) c.cache.length
    ∧ (∀ p ∈ (sortedByAccess c).take (evictCount maxSize),
        ∀ q ∈ (sortedByAccess c).drop (evictCount maxSize), p.2 ≤ q.2)
    ∧ (∀ p ∈ (sortedByAccess c).take (evictCount maxSize),
        ¬ p.1 ∈ mapKeys (enforceMaxSize maxSize c).cache) := by
  have hpw := @List.sorted_mergeSort (String × Nat)
    (fun a b : String × Nat => a.2 ≤ b.2)
    (fun a b d h1 h2 => by
      simp only [decide_eq_true_eq] at h1 h2 ⊢
      omega)
    (fun a b => by
      rcases Nat.le_total a.2 b.2 with h | h
      · simp [h]
      · simp [h])
    c.accessOrder
  have hsplit := List.take_append_drop (evictCount maxSize) (sortedByAccess c)
  have hpw2 : List.Pairwise (fun a b : String × Nat => (decide (a.2 ≤ b.2)) = true)
      ((sortedByAccess c).take (evictCount maxSize)
        ++ (sortedByAccess c).drop (evictCount maxSize)) := by
    rw [hsplit]
    exact hpw
  obtain ⟨-, -, hcross⟩ := List.pairwise_append.mp hpw2
  refine ⟨?_, ?_, ?_, ?_⟩
  · intro hBin
    by_contra hAnot
    have hAs : (kA, rA) ∈ sortedByAccess c :=
      (List.mergeSort_perm c.accessOrder _).mem_iff.mpr hA
    have hAd : (kA, rA) ∈ (sortedByAccess c).drop (evictCount maxSize) := by
      rcases List.mem_append.mp (by rw [hsplit]; exact hAs) with h | h
      · exact absurd h hAnot
      · exact h
    have := hcross (kB, rB) hBin (kA, rA) hAd
    simp only [decide_eq_true_eq] at this
    omega
  · rw [List.length_take, sortedByAccess_length c hwf]
  · intro p hp q hq
    have := hcross p hp q hq
    simpa using this
  · intro p hp
    unfold enforceMaxSize
    rw [if_pos hfull]
    exact foldl_cmDelete_removes (fun kv : String × Nat => kv.1)
      ((sortedByAccess c).take (evictCount maxSize)) c p hp

/-! ### POSIX path model (`node:path` as used by the sources)

Paths are plain strings.  `pathNormalize` follows Node's
`path.posix.normalize`: split on `/`, drop empty and `.` segments,
resolve `..` against preceding segments (keeping leading `..` only on
relative paths), then re-join, restoring a leading and a trailing
separator where the input had them. -/

/-- Split a character list at every occurrence of `sep` (the separator is
not kept; adjacent separators produce empty segments). -/
def splitOnCharAux (sep : Char) (cur : List Char) : List Char → List (List Char)
  | [] => [cur.reverse]
  | c :: rest =>
    if c = sep then cur.reverse :: splitOnCharAux sep [] rest
    else splitOnCharAux sep (c :: cur) rest

/-- `String.prototype.split(sep)` for a single-character separator. -/
def splitOnChar (sep : Char) (s : String) : List String :=
  (splitOnCharAux sep [] s.data).map (fun l => String.mk l)

/-- The `/`-separated segments of a path string. -/
def segsOf (p : String) : List String :=
  splitOnChar '/' p

/-- Join segments with `/` (no leading separator). -/
def joinSegs : List String → String
  | [] => ""
  | [s] => s
  | s :: rest => s ++ "/" ++ joinSegs rest

def isAbsolutePath (p : String) : Bool :=
  match p.data with
  | [] => false
  | c :: _ => c = '/'

def endsWithSlash (p : String) : Bool :=
  match p.data.getLast? with
  | some c => c = '/'
  | none => false

/-- Normalization of the segment list: `acc` holds the already-resolved
segments in reverse. -/
def normSegsAux (isAbs : Bool) (acc : List String) : List String → List String
  | [] => acc.reverse
  | s :: rest =>
    if s = "" ∨ s = "." then normSegsAux isAbs acc rest
    else if s = ".." then
      match acc with
      | [] =>
        if isAbs then normSegsAux isAbs [] rest
        else normSegsAux isAbs [".."] rest
      | t :: ts =>
        if t = ".." then normSegsAux isAbs (".." :: t :: ts) rest
        else normSegsAux isAbs ts rest
    else normSegsAux isAbs (s :: acc) rest

/-- The segments of the normalized form of `p`. -/
def normSegs (p : String) : List String :=
  normSegsAux (isAbsolutePath p) [] (segsOf p)

/-- Final assembly step of `path.normalize`: an empty body becomes `.`,
and a trailing separator of the input is restored. -/
def finishNormalize (trail : Bool) (base : String) : String :=
  if base = "" then (if trail then "./" else ".")
  else if trail ∧ base ≠ "/" then base ++ "/" else base

/-- `path.normalize` (POSIX). -/
def pathNormalize (p : String) : String :=
  if p = "" then "."
  else
    finishNormalize (endsWithSlash p)
      (if isAbsolutePath p then "/" ++ joinSegs (normSegs p) else joinSegs (normSegs p))

/-- Trailing-separator removal performed by `path.resolve`. -/
def stripTrailSlash (p : String) : String :=
  if p = "/" then p
  else
    match p.data.getLast? with
    | some c => if c = '/' then String.mk p.data.dropLast else p
    | none => p

/-- `path.resolve(p)` against the process working directory. -/
def pathResolve (cwd p : String) : String :=
  stripTrailSlash (pathNormalize (if isAbsolutePath p then p else cwd ++ "/" ++ p))

/-- `path.resolve(base, p)` against the process working directory. -/
def pathResolve2 (cwd base p : String) : String :=
  if isAbsolutePath p then stripTrailSlash (pathNormalize p)
  else if isAbsolutePath base then stripTrailSlash (pathNormalize (base ++ "/" ++ p))
  else stripTrailSlash (pathNormalize (cwd ++ "/" ++ base ++ "/" ++ p))

/-- `path.dirname` (POSIX). -/
def dirname (p : String) : String :=
  let pre := joinSegs (segsOf p).dropLast
  if pre = "" then (if isAbsolutePath p then "/" else ".") else pre

/-- `path.basename` (POSIX). -/
def basename (p : String) : String :=
  ((segsOf p).getLast?).getD ""

def lastDotIdxAux (i : Nat) (best : Option Nat) : List Char → Option Nat
  | [] => best
  | c :: rest => lastDotIdxAux (i + 1) (if c = '.' then some i else best) rest

/-- `path.extname` (POSIX): from the last `.` of the basename, unless it
is the leading character. -/
def extname (p : String) : String :=
  let b := (basename p).data
  match lastDotIdxAux 0 none b with
  | none => ""
  | some 0 => ""
  | some i => String.mk (b.drop i)

/-- `String.prototype.includes(sub)`: contiguous-substring test. -/
def listContainsSub (l sub : List Char) : Bool :=
  match l with
  | [] => sub.isEmpty
  | _ :: t => sub.isPrefixOf l || listContainsSub t sub

def strIncludes (s sub : String) : Bool :=
  listContainsSub s.data sub.data

/-- ASCII lower-casing as performed by `String.prototype.toLowerCase`
on the extension strings appearing here. -/
def charToLower (c : Char) : Char :=
  if 'A' ≤ c ∧ c ≤ 'Z' then Char.ofNat (c.toNat + 32) else c

def strToLower (s : String) : String :=
  String.mk (s.data.map charToLower)

theorem isPrefixOf_self_append (s r : List Char) : s.isPrefixOf (s ++ r) = true := by
  induction s with
  | nil => simp [List.isPrefixOf]
  | cons c t ih => simp [List.isPrefixOf, ih]

theorem isPrefixOf_mono (s l post : List Char) (h : s.isPrefixOf l = true) :
    s.isPrefixOf (l ++ post) = true := by
  induction s generalizing l with
  | nil => simp [List.isPrefixOf]
  | cons c t ih =>
    cases l with
    | nil => simp [List.isPrefixOf] at h
    | cons d l2 =>
      simp only [List.isPrefixOf, Bool.and_eq_true] at h
      simp only [List.cons_append, List.isPrefixOf, Bool.and_eq_true]
      exact ⟨h.1, ih l2 h.2⟩

theorem listContainsSub_append_left (a l sub : List Char)
    (h : listContainsSub l sub = true) : listContainsSub (a ++ l) sub = true := by
  induction a with
  | nil => exact h
  | cons c t ih =>
    rw [List.cons_append, listContainsSub]
    rw [Bool.or_eq_true]
    exact Or.inr ih

theorem listContainsSub_append_right (l post sub : List Char)
    (h : listContainsSub l sub = true) : listContainsSub (l ++ post) sub = true := by
  induction l with
  | nil =>
    rw [listContainsSub] at h
    have : sub = [] := by
      cases sub with
      | nil => rfl
      | cons c t => simp [List.isEmpty] at h
    rw [this]
    cases post with
    | nil => rfl
    | cons c t =>
      rw [List.nil_append, listContainsSub, Bool.or_eq_true]
      exact Or.inl rfl
  | cons c t ih =>
    rw [listContainsSub, Bool.or_eq_true] at h
    rw [List.cons_append, listContainsSub, Bool.or_eq_true]
    rcases h with h | h
    · exact Or.inl (by rw [← List.cons_append]; exact isPrefixOf_mono _ _ _ h)
    · exact Or.inr (ih h)

theorem listContainsSub_self (l : List Char) (hne : l ≠ []) :
    listContainsSub l l = true := by
  cases l with
  | nil => exact absurd rfl hne
  | cons c t =>
    rw [listContainsSub, Bool.or_eq_true]
    exact Or.inl (by
      have := isPrefixOf_self_append (c :: t) []
      rwa [List.append_nil] at this)

theorem data_append (s t : String) : (s ++ t).data = s.data ++ t.data := rfl

/-- A segment of a joined list occurs as a substring of the join. -/
theorem joinSegs_contains_mem (segs : List String) (x : String) (hx : x ∈ segs)
    (hne : x ≠ "") : listContainsSub (joinSegs segs).data x.data = true := by
  induction segs with
  | nil => exact absurd hx (List.not_mem_nil x)
  | cons s rest ih =>
    have hxd : x.data ≠ [] := by
      intro hc
      exact hne (by cases x; simp at hc; simp [hc])
    rcases List.mem_cons.mp hx with h1 | h1
    · cases rest with
      | nil =>
        show listContainsSub s.data x.data = true
        rw [← h1]
        exact listContainsSub_self x.data hxd
      | cons r rest2 =>
        show listContainsSub (s ++ "/" ++ joinSegs (r :: rest2)).data x.data = true
        rw [data_append, data_append, ← h1, List.append_assoc]
        exact listContainsSub_append_right _ _ _ (listContainsSub_self x.data hxd)
    · cases rest with
      | nil => exact absurd h1 (List.not_mem_nil x)
      | cons r rest2 =>
        show listContainsSub (s ++ "/" ++ joinSegs (r :: rest2)).data x.data = true
        rw [data_append, data_append, List.append_assoc]
        exact listContainsSub_append_left _ _ _
          (listContainsSub_append_left _ _ _ (ih h1))

/-- If the normalized form of `p` still holds a `..` traversal segment,
the normalized string contains `".."` as a substring. -/
theorem finishNormalize_contains (trail : Bool) (base : String)
    (h : listContainsSub base.data (".." : String).data = true) :
    listContainsSub (finishNormalize trail base).data (".." : String).data = true := by
  have hbne : base ≠ "" := by
    intro hc
    rw [hc] at h
    simp [listContainsSub, List.isEmpty] at h
  unfold finishNormalize
  rw [if_neg hbne]
  by_cases hc : (trail = true) ∧ base ≠ "/"
  · rw [if_pos hc, data_append]
    exact listContainsSub_append_right _ _ _ h
  · rw [if_neg hc]
    exact h

theorem normalize_contains_dotdot (p : String) (h : ".." ∈ normSegs p) :
    strIncludes (pathNormalize p) ".." = true := by
  have hpne : p ≠ "" := by
    intro hc
    rw [hc] at h
    simp [normSegs, segsOf, splitOnChar, splitOnCharAux, normSegsAux] at h
  have hcore : listContainsSub (joinSegs (normSegs p)).data (".." : String).data = true :=
    joinSegs_contains_mem (normSegs p) ".." h (by decide)
  unfold strIncludes pathNormalize
  rw [if_neg hpne]
  cases habs : isAbsolutePath p with
  | true =>
    simp only [habs, if_true]
    apply finishNormalize_contains
    rw [data_append]
    exact listContainsSub_append_left _ _ _ hcore
  | false =>
    simp only [habs, Bool.false_eq_true, if_false]
    exact finishNormalize_contains _ _ hcore

/-- Concrete state for the C8 witness: a cache at capacity 2 where `"a"`
was accessed less recently (rank 1) than `"b"` (rank 2). -/
def lruCacheW : CacheMgr Nat :=
  { cache := [("a", { data := 1, timestamp := 0, expiresAt := none }),
              ("b", { data := 2, timestamp := 0, expiresAt := none })],
    accessOrder := [("a", 1), ("b", 2)],
    accessCounter := 2 }

theorem cache_lru_eviction_order_witness :
    CacheWF lruCacheW ∧ 2 ≤ lruCacheW.cache.length
    ∧ ("a", 1) ∈ lruCacheW.accessOrder ∧ ("b", 2) ∈ lruCacheW.accessOrder
    ∧ 1 < 2
    ∧ (((("b", 2) ∈ (sortedByAccess lruCacheW).take (evictCount 2) →
          ("a", 1) ∈ (sortedByAccess lruCacheW).take (evictCount 2)))
       ∧ ((sortedByAccess lruCacheW).take (evictCount 2)).length
           = min (evictCount 2) lruCacheW.cache.length
       ∧ (∀ p ∈ (sortedByAccess lruCacheW).take (evictCount 2),
           ∀ q ∈ (sortedByAccess lruCacheW).drop (evictCount 2), p.2 ≤ q.2)
       ∧ (∀ p ∈ (sortedByAccess lruCacheW).take (evictCount 2),
           ¬ p.1 ∈ mapKeys (enforceMaxSize 2 lruCacheW).cache)) :=
  ⟨by decide, by decide, by decide, by decide, by decide,
   cache_lru_eviction_order Nat lruCacheW 2 "a" "b" 1 2
     (by decide) (by decide) (by decide) (by decide) (by decide)⟩

/-! ### Error taxonomy (`src/utils/errors.ts`) -/

inductive ErrorCode where
  | INVALID_PATH
  | FILE_NOT_FOUND
  | PERMISSION_DENIED
  | INVALID_INPUT
  | PROCESSING_ERROR
  | CACHE_ERROR
  | DEPENDENCY_ERROR
  | VALIDATION_ERROR
  | MEMORY_LIMIT_EXCEEDED
  | FILE_SIZE_LIMIT_EXCEEDED
  | TIMEOUT_ERROR
  | NETWORK_ERROR
  deriving DecidableEq

/-- A thrown `ContextEngineError` (code plus message). -/
structure CEError where
  code : ErrorCode
  message : String
  deriving DecidableEq

/-! ### Input validation (`src/utils/validation.ts`) -/

/-- `validatePath`: rejects empty paths, any normalized path containing
the substring `".."`, and (when a base directory is supplied) absolute
paths. -/
def validatePath (inputPath : String) (baseDir : Option String) : Except CEError String :=
  if inputPath = "" then
    .error { code := .INVALID_PATH, message := "Path must be a non-empty string" }
  else
    let normalized := pathNormalize inputPath
    if strIncludes normalized ".." then
      .error { code := .INVALID_PATH, message := "Path traversal not allowed" }
    else if baseDir.isSome ∧ isAbsolutePath normalized then
      .error { code := .INVALID_PATH, message := "Absolute paths not allowed in this context" }
    else
      .ok normalized

/-- `validateProjectPath`: `validatePath` then `path.resolve`. -/
def validateProjectPath (cwd inputPath : String) : Except CEError String :=
  match validatePath inputPath none with
  | .error e => .error e
  | .ok n => .ok (pathResolve cwd n)

/-- `validateFileSize`: throws a `ValidationError` when over the limit. -/
def validateFileSize (size maxSize : Nat) : Except CEError Unit :=
  if maxSize < size then
    .error { code := .VALIDATION_ERROR,
             message := "File size exceeds maximum allowed size" }
  else
    .ok ()

/-- `FilePathSchema`: non-empty, relative, traversal-free. -/
def filePathValid (p : String) : Bool :=
  p ≠ "" ∧ ¬ strIncludes (pathNormalize p) ".." = true ∧ ¬ isAbsolutePath (pathNormalize p) = true

/-- `ProjectPathSchema`: non-empty, resolved form traversal-free. -/
def projectPathValid (cwd p : String) : Bool :=
  p ≠ "" ∧ ¬ strIncludes (pathResolve cwd p) ".." = true

/-- `String.prototype.startsWith` as a structural char-list test. -/
def strStartsWith (s pre : String) : Bool :=
  pre.data.isPrefixOf s.data

/-- `isPathWithinDirectory`: resolved target equals the resolved base or
lives strictly under it. -/
def isPathWithinDirectory (cwd targetPath baseDirectory : String) : Bool :=
  let resolvedTarget := pathResolve cwd targetPath
  let resolvedBase := pathResolve cwd baseDirectory
  strStartsWith resolvedTarget (resolvedBase ++ "/") || resolvedTarget = resolvedBase

/-! ### Filesystem model

An in-memory filesystem: a content map for regular files, a directory
list, and a list of paths on which the raw `node:fs` primitives fail
(modelling environmental I/O errors such as permission problems).
Failures of raw promises surface through `handleAsyncError` /
`createErrorFromUnknown` as `PROCESSING_ERROR` errors. -/

structure FSState where
  files : List (String × String)
  dirs : List String
  ioFail : List String
  deriving DecidableEq

structure StatInfo where
  isFile : Bool
  size : Nat
  deriving DecidableEq

/-- `fs.stat` (`none` models a thrown error). -/
def fsStat (fs : FSState) (p : String) : Option StatInfo :=
  if fs.ioFail.contains p then none
  else
    match mapGet fs.files p with
    | some content => some { isFile := true, size := content.utf8ByteSize }
    | none =>
      if fs.dirs.contains p then some { isFile := false, size := 0 } else none

/-- Raw `fs.readFile`. -/
def fsRead (fs : FSState) (p : String) : Except CEError String :=
  if fs.ioFail.contains p then
    .error { code := .PROCESSING_ERROR, message := "EIO: read failed" }
  else
    match mapGet fs.files p with
    | some c => .ok c
    | none => .error { code := .PROCESSING_ERROR, message := "ENOENT: no such file" }

/-- Raw `fs.writeFile` (fails when the parent directory is absent, as
`ENOENT`, or on an I/O-failing path). -/
def fsWrite (fs : FSState) (p content : String) : Except CEError FSState :=
  if fs.ioFail.contains p then
    .error { code := .PROCESSING_ERROR, message := "EIO: write failed" }
  else if ¬ fs.dirs.contains (dirname p) = true then
    .error { code := .PROCESSING_ERROR, message := "ENOENT: no such directory" }
  else
    .ok { fs with files := mapSet fs.files p content }

/-- Raw `fs.unlink`. -/
def fsUnlink (fs : FSState) (p : String) : Except CEError FSState :=
  if fs.ioFail.contains p then
    .error { code := .PROCESSING_ERROR, message := "EIO: unlink failed" }
  else
    match mapGet fs.files p with
    | some _ => .ok { fs with files := mapDelete fs.files p }
    | none => .error { code := .PROCESSING_ERROR, message := "ENOENT: no such file" }

/-- Raw `fs.mkdir` with `recursive: true`. -/
def fsMkdirRec (fs : FSState) (p : String) : Except CEError FSState :=
  if fs.ioFail.contains p then
    .error { code := .PROCESSING_ERROR, message := "EIO: mkdir failed" }
  else
    .ok { fs with dirs := if fs.dirs.contains p then fs.dirs else fs.dirs ++ [p] }

/-- `fs.access`-based existence test (true for files and directories). -/
def fsAccess (fs : FSState) (p : String) : Bool :=
  !fs.ioFail.contains p && ((mapGet fs.files p).isSome || fs.dirs.contains p)

/-! ### Data model (`src/types/index.ts`) -/

structure CodeStructure where
  functions : List String
  classes : List String
  exports : List String
  imports : List String
  variables' : List String
  comments : List String
  deriving DecidableEq

def emptyStructure : CodeStructure :=
  { functions := [], classes := [], exports := [], imports := [],
    variables' := [], comments := [] }

/-- `FileInfo` (the `lastModified` mtime field is not modelled: no claim
mentions it and the filesystem model does not track modification
times). -/
structure FileInfo where
  path : String
  absolutePath : String
  language : String
  size : Nat
  lines : Nat
  hash : String
  dependencies : List String
  structure' : CodeStructure
  content : String
  deriving DecidableEq

/-! ### Configuration and external collaborators

`Env` packages the configuration values read through `configManager`,
the clock (`Date.now()` / `new Date().toISOString()`), the working
directory consumed by `path.resolve`, and the opaque collaborators (MD5
hashing from `node:crypto`). -/

structure Env where
  cwd : String
  maxFileSize : Nat
  maxContentLength : Nat
  backupDirectory : String
  maxCacheSize : Nat
  isoNow : String
  nowMs : Nat
  md5 : String → String
  regexTest : String → Bool → String → Bool

/-! ### FileManager (`src/services/file-manager.ts`)

The source keeps one `CacheManager<any>` instance (`fileCache`) holding
raw file contents under absolute-path keys and `FileInfo` records under
`"fileInfo:"`-prefixed keys.  The two key namespaces are disjoint
(absolute paths start with `/`), so the model splits them into two typed
cache instances. -/

structure FMState where
  fs : FSState
  contentCache : CacheMgr String
  infoCache : CacheMgr FileInfo
  deriving DecidableEq

def supportedExtensions : List String :=
  [".js", ".jsx", ".mjs", ".cjs",
   ".ts", ".tsx",
   ".py", ".pyw",
   ".java",
   ".cs",
   ".cpp", ".cxx", ".cc", ".c++", ".c", ".h", ".hpp",
   ".php",
   ".rb",
   ".go",
   ".rs",
   ".vue",
   ".svelte",
   ".html", ".htm",
   ".css", ".scss", ".sass", ".less",
   ".json",
   ".yml", ".yaml",
   ".md", ".txt",
   ".xml",
   ".sql"]

def languageMap : List (String × String) :=
  [(".js", "javascript"), (".jsx", "javascript"), (".mjs", "javascript"),
   (".cjs", "javascript"),
   (".ts", "typescript"), (".tsx", "typescript"),
   (".py", "python"), (".pyw", "python"),
   (".java", "java"),
   (".cs", "csharp"),
   (".cpp", "cpp"), (".cxx", "cpp"), (".cc", "cpp"), (".c++", "cpp"),
   (".c", "c"), (".h", "c"), (".hpp", "cpp"),
   (".php", "php"),
   (".rb", "ruby"),
   (".go", "go"),
   (".rs", "rust"),
   (".vue", "vue"),
   (".svelte", "svelte")]

/-- `FileManager.detectLanguage`. -/
def detectLanguage (filePath : String) : String :=
  (mapGet languageMap (strToLower (extname filePath))).getD "text"

/-- `FileManager.ensureDirectory` (wraps `fs.mkdir` failures into a
`ProcessingError`). -/
def ensureDirectory (fs : FSState) (dirPath : String) : Except CEError FSState :=
  match fsMkdirRec fs dirPath with
  | .ok fs2 => .ok fs2
  | .error _ =>
    .error { code := .PROCESSING_ERROR, message := "Failed to create directory" }

/-- `FileManager.fileExists`: validate, resolve, `fs.access`; any failure
yields `false`. -/
def fileExistsFM (env : Env) (fs : FSState) (filePath : String) : Bool :=
  match validatePath filePath none with
  | .error _ => false
  | .ok n => fsAccess fs (pathResolve env.cwd n)

/-- `toISOString().replace(/[:.]/g, '-')`. -/
def tsSanitize (iso : String) : String :=
  String.mk (iso.data.map (fun c => if c = ':' ∨ c = '.' then '-' else c))

/-- `toISOString().split('T')[0]`. -/
def dateOf (iso : String) : String :=
  String.mk (iso.data.takeWhile (fun c => ¬ c = 'T'))

/-- The dated backup directory and the timestamped backup file path used
by `createBackup` (`path.join` of the target's directory, the configured
backup directory name, today's date, and the timestamped file name). -/
def backupDirOf (env : Env) (filePath : String) : String :=
  pathNormalize (dirname filePath ++ "/" ++ env.backupDirectory ++ "/" ++ dateOf env.isoNow)

def backupPathOf (env : Env) (filePath : String) : String :=
  pathNormalize (backupDirOf env filePath ++ "/"
    ++ (basename filePath ++ "." ++ tsSanitize env.isoNow ++ ".backup"))

/-- `FileManager.createBackup`: no-op when the target does not exist;
every internal failure (directory creation, read, write) is caught and
swallowed, leaving whatever partial state the steps produced. -/
def createBackup (env : Env) (fs : FSState) (filePath : String) : FSState :=
  if ¬ fileExistsFM env fs filePath = true then fs
  else
    match ensureDirectory fs (backupDirOf env filePath) with
    | .error _ => fs
    | .ok fs1 =>
      match fsRead fs1 filePath with
      | .error _ => fs1
      | .ok content =>
        match fsWrite fs1 (backupPathOf env filePath) content with
        | .error _ => fs1
        | .ok fs2 => fs2

/-- `FileManager.writeFile`: validate the path and content size, ensure
the parent directory (optional), take a backup (optional, non-fatal),
write, then update the content cache. -/
def writeFile (env : Env) (st : FMState) (filePath content : String)
    (createBackupOpt ensureDirectoryOpt : Bool) : Except CEError Unit × FMState :=
  match validatePath filePath none with
  | .error e => (.error e, st)
  | .ok normalizedPath =>
    let absolutePath := pathResolve env.cwd normalizedPath
    match validateFileSize content.utf8ByteSize env.maxFileSize with
    | .error e => (.error e, st)
    | .ok _ =>
      match (if ensureDirectoryOpt then ensureDirectory st.fs (dirname absolutePath)
             else .ok st.fs) with
      | .error e => (.error e, st)
      | .ok fs0 =>
        let fs1 := if createBackupOpt then createBackup env fs0 absolutePath else fs0
        match fsWrite fs1 absolutePath content with
        | .error e => (.error e, { st with fs := fs1 })
        | .ok fs2 =>
          (.ok (),
           { st with
             fs := fs2,
             contentCache :=
               cmSet env.maxCacheSize env.nowMs st.contentCache absolutePath content none })

/-- `FileManager.deleteFile`: validate, no-op success when the target is
absent, otherwise backup (optional, non-fatal), unlink, and evict the
content-cache entry. -/
def deleteFile (env : Env) (st : FMState) (filePath : String)
    (createBackupOpt : Bool) : Except CEError Unit × FMState :=
  match validatePath filePath none with
  | .error e => (.error e, st)
  | .ok normalizedPath =>
    let absolutePath := pathResolve env.cwd normalizedPath
    if ¬ fileExistsFM env st.fs absolutePath = true then (.ok (), st)
    else
      let fs1 := if createBackupOpt then createBackup env st.fs absolutePath else st.fs
      match fsUnlink fs1 absolutePath with
      | .error e => (.error e, { st with fs := fs1 })
      | .ok fs2 =>
        (.ok (),
         { st with fs := fs2,
                   contentCache := cmDelete st.contentCache absolutePath })

/-- `FileManager.readFile`: validate, optional read-through cache, stat
(absence surfaces as `FILE_NOT_FOUND`), size check, read, optional cache
fill. -/
def readFile (env : Env) (st : FMState) (filePath : String) (useCache : Bool) :
    Except CEError String × FMState :=
  match validatePath filePath none with
  | .error e => (.error e, st)
  | .ok normalizedPath =>
    let absolutePath := pathResolve env.cwd normalizedPath
    match (if useCache then
             (let r := cmGet env.nowMs st.contentCache absolutePath
              (r.1, { st with contentCache := r.2 }))
           else ((none : Option String), st)) with
    | (some cached, st1) => (.ok cached, st1)
    | (none, st1) =>
      match fsStat st1.fs absolutePath with
      | none => (.error { code := .FILE_NOT_FOUND, message := "File not found" }, st1)
      | some stats =>
        match validateFileSize stats.size env.maxFileSize with
        | .error e => (.error e, st1)
        | .ok _ =>
          match fsRead st1.fs absolutePath with
          | .error e => (.error e, st1)
          | .ok content =>
            if useCache then
              (.ok content,
               { st1 with
                 contentCache :=
                   cmSet env.maxCacheSize env.nowMs st1.contentCache absolutePath content none })
            else (.ok content, st1)

/-- Length of the common segment prefix, used by `path.relative`. -/
def commonPrefixLen : List String → List String → Nat
  | a :: as2, b :: bs2 => if a = b then 1 + commonPrefixLen as2 bs2 else 0
  | _, _ => 0

/-- `path.relative(from, to)` (POSIX, on resolved paths). -/
def pathRelative (cwd fromPath toPath : String) : String :=
  let f := pathResolve cwd fromPath
  let t := pathResolve cwd toPath
  if f = t then ""
  else
    let fsegs := (segsOf f).filter (fun s => s ≠ "")
    let tsegs := (segsOf t).filter (fun s => s ≠ "")
    let common := commonPrefixLen fsegs tsegs
    joinSegs (List.replicate (fsegs.length - common) ".." ++ tsegs.drop common)

/-- `content.split(chr).length` as used for the line count. -/
def countSplit (chr : Char) (s : String) : Nat :=
  (splitOnChar chr s).length

/-- `FileInfo.content` truncation to `maxContentLength`. -/
def truncContent (maxContentLength : Nat) (content : String) : String :=
  if maxContentLength < content.length then
    String.mk (content.data.take maxContentLength) ++ "\n... [truncated]"
  else content

/-- `FileManager.getFileInfo`: cached `FileInfo` lookup, then stat
(absence, oversize, or unsupported extension yield `null`), then a read
and `FileInfo` construction whose failures are caught and turned into
`null`; only the initial path validation propagates as an error. -/
def getFileInfo (env : Env) (st : FMState) (filePath : String) :
    Except CEError (Option FileInfo) × FMState :=
  match validatePath filePath none with
  | .error e => (.error e, st)
  | .ok normalizedPath =>
    let absolutePath := pathResolve env.cwd normalizedPath
    let cacheKey := "fileInfo:" ++ absolutePath
    match cmGet env.nowMs st.infoCache cacheKey with
    | (some cached, c2) => (.ok (some cached), { st with infoCache := c2 })
    | (none, c2) =>
      let st1 := { st with infoCache := c2 }
      match fsStat st1.fs absolutePath with
      | none => (.ok none, st1)
      | some stats =>
        if env.maxFileSize < stats.size then (.ok none, st1)
        else
          if supportedExtensions.contains (strToLower (extname absolutePath))
              ∧ stats.isFile = true then
            match readFile env st1 absolutePath false with
            | (.error _, st2) => (.ok none, st2)
            | (.ok content, st2) =>
              let fileInfo : FileInfo :=
                { path := pathRelative env.cwd env.cwd absolutePath,
                  absolutePath := absolutePath,
                  language := detectLanguage absolutePath,
                  size := stats.size,
                  lines := countSplit (Char.ofNat 10) content,
                  hash := env.md5 content,
                  dependencies := [],
                  structure' := emptyStructure,
                  content := truncContent env.maxContentLength content }
              (.ok (some fileInfo),
               { st2 with
                 infoCache :=
                   cmSet env.maxCacheSize env.nowMs st2.infoCache cacheKey fileInfo
                     (some 3600000) })
          else (.ok none, st1)

/-- `FileManager.findFiles` filtering loop over the glob results: a stat
failure skips the entry (`catch` + `continue`), directories and oversize
files are skipped, and a file is kept when its lower-cased extension is
supported or empty. -/
def findFilesFilter (maxFileSize : Nat) (fs : FSState) : List String → List String
  | [] => []
  | f :: rest =>
    match fsStat fs f with
    | none => findFilesFilter maxFileSize fs rest
    | some stats =>
      if ¬ stats.isFile = true then findFilesFilter maxFileSize fs rest
      else if maxFileSize < stats.size then findFilesFilter maxFileSize fs rest
      else if supportedExtensions.contains (strToLower (extname f))
          ∨ strToLower (extname f) = "" then
        f :: findFilesFilter maxFileSize fs rest
      else findFilesFilter maxFileSize fs rest

/-- `FileManager.findFiles`: validate the search root, expand globs
(the external `glob` library, along with its include/ignore patterns, is
outside the model — its output is the `globResults` parameter), then
filter.  The filtering loop never mutates state. -/
def findFiles (env : Env) (fs : FSState) (searchPath : String)
    (globResults : List String) : Except CEError (List String) :=
  match validateProjectPath env.cwd searchPath with
  | .error e => .error e
  | .ok _ => .ok (findFilesFilter env.maxFileSize fs globResults)

/-! ### Claims about the validated file store -/

/-- A path whose normalized form holds a traversal segment is rejected by
`validatePath` with the traversal error. -/
theorem validatePath_traversal (p : String) (h : ".." ∈ normSegs p) :
    validatePath p none =
      .error { code := .INVALID_PATH, message := "Path traversal not allowed" } := by
  have hpne : p ≠ "" := by
    intro hc
    rw [hc] at h
    simp [normSegs, segsOf, splitOnChar, splitOnCharAux, normSegsAux] at h
  have hinc := normalize_contains_dotdot p h
  unfold validatePath
  rw [if_neg hpne, if_pos hinc]

/-- C3: for every input path whose normalized form contains a
parent-directory traversal segment, `writeFile` fails with the
path-validation error kind (distinct from the not-found and size-limit
kinds) and returns the state unchanged — no filesystem mutation, backup,
or cache update happens. -/
theorem writeFile_rejects_traversal (env : Env) (st : FMState)
    (p content : String) (cb ed : Bool) (h : ".." ∈ normSegs p) :
    writeFile env st p content cb ed =
      (.error { code := .INVALID_PATH, message := "Path traversal not allowed" }, st)
    ∧ ErrorCode.INVALID_PATH ≠ ErrorCode.FILE_NOT_FOUND
    ∧ ErrorCode.INVALID_PATH ≠ ErrorCode.VALIDATION_ERROR := by
  refine ⟨?_, by decide, by decide⟩
  unfold writeFile
  rw [validatePath_traversal p h]

/-- Concrete environment for the file-store witnesses. -/
def envW : Env :=
  { cwd := "/r",
    maxFileSize := 1000,
    maxContentLength := 100,
    backupDirectory := ".context-engine-backups",
    maxCacheSize := 1000,
    isoNow := "2026-01-01T00:00:00.000Z",
    nowMs := 0,
    md5 := fun s => s,
    regexTest := fun _ _ _ => false }

/-- An empty FileManager state. -/
def emptyFM : FMState :=
  { fs := { files := [], dirs := [], ioFail := [] },
    contentCache := cmInit String,
    infoCache := cmInit FileInfo }

theorem writeFile_rejects_traversal_witness :
    ".." ∈ normSegs "../etc/passwd"
    ∧ writeFile envW emptyFM "../etc/passwd" "x" true true =
        (.error { code := .INVALID_PATH, message := "Path traversal not allowed" },
         emptyFM) :=
  ⟨by decide,
   (writeFile_rejects_traversal envW emptyFM "../etc/passwd" "x" true true
     (by decide)).1⟩

/-- Every path kept by the `findFiles` filtering loop stats as a regular
file, is within the size limit, and has a supported or empty lower-cased
extension. -/
theorem findFilesFilter_spec (maxFileSize : Nat) (fs : FSState)
    (gl : List String) :
    ∀ f ∈ findFilesFilter maxFileSize fs gl,
      ∃ stats : StatInfo, fsStat fs f = some stats ∧ stats.isFile = true
        ∧ stats.size ≤ maxFileSize
        ∧ (supportedExtensions.contains (strToLower (extname f)) = true
           ∨ strToLower (extname f) = "") := by
  induction gl with
  | nil => intro f hf; exact absurd hf (List.not_mem_nil f)
  | cons g rest ih =>
    intro f hf
    rw [findFilesFilter] at hf
    split at hf
    · exact ih f hf
    · rename_i stats hstat
      split at hf
      · exact ih f hf
      · rename_i hfile
        split at hf
        · exact ih f hf
        · rename_i hsize
          split at hf
          · rename_i hext
            rcases List.mem_cons.mp hf with h1 | h1
            · subst h1
              exact ⟨stats, hstat, by simpa using hfile, Nat.le_of_not_lt hsize, hext⟩
            · exact ih f h1
          · exact ih f hf

/-- C9 (amended): every path returned by `findFiles` is a regular file
within the size limit whose lower-cased extension is supported **or
empty** — extension-less files pass the filter. -/
theorem findFiles_returns_supported_or_extensionless (env : Env) (fs : FSState)
    (searchPath : String) (globResults : List String) (l : List String)
    (hok : findFiles env fs searchPath globResults = .ok l) :
    ∀ f ∈ l,
      ∃ stats : StatInfo, fsStat fs f = some stats ∧ stats.isFile = true
        ∧ stats.size ≤ env.maxFileSize
        ∧ (supportedExtensions.contains (strToLower (extname f)) = true
           ∨ strToLower (extname f) = "") := by
  unfold findFiles at hok
  rcases hv : validateProjectPath env.cwd searchPath with e | r
  · rw [hv] at hok
    cases hok
  · rw [hv] at hok
    have hl : l = findFilesFilter env.maxFileSize fs globResults := by
      injection hok with h2
      exact h2.symm
    rw [hl]
    exact findFilesFilter_spec env.maxFileSize fs globResults

/-- Filesystem for the C9 refutation: one regular extension-less file. -/
def c9fs : FSState :=
  { files := [("/p/Makefile", "x")], dirs := ["/p"], ioFail := [] }

/-- C9 counterexample: `findFiles` returns the extension-less regular
file `/p/Makefile` even though its (empty) extension is outside the
supported-extension set, refuting the claim that every returned path has
a supported extension. -/
theorem findFiles_unsupported_extension_counterexample :
    findFiles envW c9fs "/p" ["/p/Makefile"] = .ok ["/p/Makefile"]
    ∧ supportedExtensions.contains (strToLower (extname "/p/Makefile")) = false := by
  constructor
  · rfl
  · rfl

theorem findFiles_returns_supported_or_extensionless_witness :
    findFiles envW c9fs "/p" ["/p/Makefile"] = .ok ["/p/Makefile"]
    ∧ (∀ f ∈ ["/p/Makefile"],
        ∃ stats : StatInfo, fsStat c9fs f = some stats ∧ stats.isFile = true
          ∧ stats.size ≤ envW.maxFileSize
          ∧ (supportedExtensions.contains (strToLower (extname f)) = true
             ∨ strToLower (extname f) = "")) :=
  ⟨rfl,
   findFiles_returns_supported_or_extensionless envW c9fs "/p" ["/p/Makefile"]
     ["/p/Makefile"] rfl⟩

/-! ### Backup semantics (claim C4) -/

theorem ensureDirectory_ok (fs : FSState) (d : String)
    (h : ¬ fs.ioFail.contains d = true) :
    ensureDirectory fs d =
      .ok { fs with dirs := if fs.dirs.contains d then fs.dirs else fs.dirs ++ [d] } := by
  unfold ensureDirectory fsMkdirRec
  rw [if_neg h]

theorem ensureDirectory_ok_inv (fs : FSState) (d : String) (fs1 : FSState)
    (h : ensureDirectory fs d = .ok fs1) :
    fs1 = { fs with dirs := if fs.dirs.contains d then fs.dirs else fs.dirs ++ [d] } := by
  unfold ensureDirectory fsMkdirRec at h
  by_cases hio : fs.ioFail.contains d = true
  · rw [if_pos hio] at h
    cases h
  · rw [if_neg hio] at h
    injection h with h
    exact h.symm

theorem fsWrite_ok_inv (fs : FSState) (p c : String) (fs2 : FSState)
    (h : fsWrite fs p c = .ok fs2) :
    fs2 = { fs with files := mapSet fs.files p c } := by
  unfold fsWrite at h
  by_cases hio : fs.ioFail.contains p = true
  · rw [if_pos hio] at h
    cases h
  · rw [if_neg hio] at h
    by_cases hdir : fs.dirs.contains (dirname p) = true
    · rw [if_neg (by simpa using hdir)] at h
      injection h with h
      exact h.symm
    · rw [if_pos (by simpa using hdir)] at h
      cases h

theorem mem_dirs_extend (l : List String) (d e : String) (h : d ∈ l) :
    d ∈ (if l.contains e then l else l ++ [e]) := by
  by_cases hc : l.contains e
  · rw [if_pos hc]
    exact h
  · rw [if_neg hc]
    exact List.mem_append_left _ h

theorem self_mem_dirs_extend (l : List String) (e : String) :
    e ∈ (if l.contains e then l else l ++ [e]) := by
  by_cases hc : l.contains e = true
  · rw [if_pos hc]
    simpa using hc
  · rw [if_neg hc]
    exact List.mem_append_right _ (List.mem_singleton.mpr rfl)

/-- `createBackup` only ever adds directories. -/
theorem createBackup_dirs_mono (env : Env) (fs : FSState) (p d : String)
    (h : d ∈ fs.dirs) : d ∈ (createBackup env fs p).dirs := by
  unfold createBackup
  split
  · exact h
  · split
    · exact h
    · rename_i fs1 hens
      have h1 : d ∈ fs1.dirs := by
        rw [ensureDirectory_ok_inv fs _ fs1 hens]
        exact mem_dirs_extend fs.dirs d _ h
      split
      · exact h1
      · rename_i content hread
        split
        · exact h1
        · rename_i fs2 hwrite
          rw [fsWrite_ok_inv fs1 _ _ fs2 hwrite]
          exact h1

/-- `createBackup` changes no file binding other than the backup path
(and never touches the I/O-failure oracle). -/
theorem createBackup_files_other (env : Env) (fs : FSState) (p q : String)
    (hq : q ≠ backupPathOf env p) :
    mapGet (createBackup env fs p).files q = mapGet fs.files q := by
  unfold createBackup
  split
  · rfl
  · split
    · rfl
    · rename_i fs1 hens
      have hfs1 : fs1.files = fs.files := by
        rw [ensureDirectory_ok_inv fs _ fs1 hens]
      split
      · rw [hfs1]
      · rename_i content hread
        split
        · rw [hfs1]
        · rename_i fs2 hwrite
          rw [fsWrite_ok_inv fs1 _ _ fs2 hwrite]
          show mapGet (mapSet fs1.files (backupPathOf env p) content) q = _
          rw [mapGet_set_other _ _ _ _ hq, hfs1]

/-- When the target exists and the backup directory and path are
writable, `createBackup` stores the target's current content at the
backup path. -/
theorem createBackup_stores_old (env : Env) (fs : FSState) (p old : String)
    (hvp : validatePath p none = .ok p)
    (hres : pathResolve env.cwd p = p)
    (hold : mapGet fs.files p = some old)
    (hio : ¬ fs.ioFail.contains p = true)
    (hiod : ¬ fs.ioFail.contains (backupDirOf env p) = true)
    (hiob : ¬ fs.ioFail.contains (backupPathOf env p) = true)
    (hdirname : dirname (backupPathOf env p) = backupDirOf env p) :
    mapGet (createBackup env fs p).files (backupPathOf env p) = some old := by
  have hex : fileExistsFM env fs p = true := by
    unfold fileExistsFM
    rw [hvp]
    show fsAccess fs (pathResolve env.cwd p) = true
    rw [hres]
    unfold fsAccess
    rw [Bool.and_eq_true, Bool.or_eq_true]
    refine ⟨by simpa using hio, Or.inl ?_⟩
    rw [hold]
    rfl
  unfold createBackup
  split
  · rename_i hc
    exact absurd hex (by simpa using hc)
  · split
    · rename_i e hens
      rw [ensureDirectory_ok fs _ hiod] at hens
      cases hens
    · rename_i fs1 hens
      have hfs1 := ensureDirectory_ok_inv fs _ fs1 hens
      have hfiles1 : fs1.files = fs.files := by rw [hfs1]
      have hiofail1 : fs1.ioFail = fs.ioFail := by rw [hfs1]
      have hdirs1 : backupDirOf env p ∈ fs1.dirs := by
        rw [hfs1]
        exact self_mem_dirs_extend fs.dirs _
      have hreadok : fsRead fs1 p = .ok old := by
        unfold fsRead
        rw [hiofail1, if_neg hio, hfiles1, hold]
      have hcontains : fs1.dirs.contains (dirname (backupPathOf env p)) = true := by
        have h3 : dirname (backupPathOf env p) ∈ fs1.dirs := by
          rw [hdirname]
          exact hdirs1
        simpa using h3
      have hwriteok : fsWrite fs1 (backupPathOf env p) old =
          .ok { fs1 with files := mapSet fs1.files (backupPathOf env p) old } := by
        unfold fsWrite
        rw [hiofail1, if_neg hiob]
        rw [if_neg (not_not_intro hcontains)]
      simp only [hreadok, hwriteok]
      exact mapGet_set_self _ _ _

/-- `createBackup` never changes the I/O-failure oracle. -/
theorem createBackup_ioFail (env : Env) (fs : FSState) (p : String) :
    (createBackup env fs p).ioFail = fs.ioFail := by
  unfold createBackup
  split
  · rfl
  · split
    · rfl
    · rename_i fs1 hens
      have h1 : fs1.ioFail = fs.ioFail := by
        rw [ensureDirectory_ok_inv fs _ fs1 hens]
      split
      · exact h1
      · rename_i content hread
        split
        · exact h1
        · rename_i fs2 hwrite
          rw [fsWrite_ok_inv fs1 _ _ fs2 hwrite]
          exact h1

/-- C4: on an existing, writable target with backup enabled (the
default), `writeFile` and `deleteFile` both succeed, the destructive
action lands (the target holds the new content / is gone), and the
backup file — written before the destructive step — holds the *prior*
content whenever the backup location is writable; a backup failure (an
I/O-failing backup location) never propagates: success and the
destructive effect hold without any assumption on the backup paths. -/
theorem backup_before_destructive (env : Env) (st : FMState)
    (p content old : String)
    (hvp : validatePath p none = .ok p)
    (hres : pathResolve env.cwd p = p)
    (hsize : content.utf8ByteSize ≤ env.maxFileSize)
    (hold : mapGet st.fs.files p = some old)
    (hio : ¬ st.fs.ioFail.contains p = true)
    (hiodir : ¬ st.fs.ioFail.contains (dirname p) = true)
    (hbne : backupPathOf env p ≠ p) :
    ((writeFile env st p content true true).1 = .ok ()
      ∧ mapGet (writeFile env st p content true true).2.fs.files p = some content
      ∧ ((¬ st.fs.ioFail.contains (backupDirOf env p) = true) →
         (¬ st.fs.ioFail.contains (backupPathOf env p) = true) →
         dirname (backupPathOf env p) = backupDirOf env p →
           mapGet (writeFile env st p content true true).2.fs.files
             (backupPathOf env p) = some old))
    ∧ ((deleteFile env st p true).1 = .ok ()
      ∧ mapGet (deleteFile env st p true).2.fs.files p = none
      ∧ ((¬ st.fs.ioFail.contains (backupDirOf env p) = true) →
         (¬ st.fs.ioFail.contains (backupPathOf env p) = true) →
         dirname (backupPathOf env p) = backupDirOf env p →
           mapGet (deleteFile env st p true).2.fs.files
             (backupPathOf env p) = some old)) := by
  have hbne2 : p ≠ backupPathOf env p := fun hc => hbne hc.symm
  have hsz : validateFileSize content.utf8ByteSize env.maxFileSize = .ok () := by
    unfold validateFileSize
    rw [if_neg (Nat.not_lt.mpr hsize)]
  have hex : fileExistsFM env st.fs p = true := by
    unfold fileExistsFM
    rw [hvp]
    show fsAccess st.fs (pathResolve env.cwd p) = true
    rw [hres]
    unfold fsAccess
    rw [Bool.and_eq_true, Bool.or_eq_true]
    refine ⟨by simpa using hio, Or.inl ?_⟩
    rw [hold]
    rfl
  have step : ∀ fs0 : FSState, fs0.files = st.fs.files → fs0.ioFail = st.fs.ioFail →
      dirname p ∈ fs0.dirs →
      fsWrite (createBackup env fs0 p) p content =
        .ok { createBackup env fs0 p with
              files := mapSet (createBackup env fs0 p).files p content }
      ∧ mapGet (mapSet (createBackup env fs0 p).files p content) p = some content
      ∧ ((¬ st.fs.ioFail.contains (backupDirOf env p) = true) →
         (¬ st.fs.ioFail.contains (backupPathOf env p) = true) →
         dirname (backupPathOf env p) = backupDirOf env p →
           mapGet (mapSet (createBackup env fs0 p).files p content)
             (backupPathOf env p) = some old) := by
    intro fs0 hfiles0 hio0 hdmem0
    have hio1 : (createBackup env fs0 p).ioFail = st.fs.ioFail := by
      rw [createBackup_ioFail, hio0]
    have hdmem1 : dirname p ∈ (createBackup env fs0 p).dirs :=
      createBackup_dirs_mono env fs0 p _ hdmem0
    refine ⟨?_, mapGet_set_self _ _ _, ?_⟩
    · unfold fsWrite
      rw [hio1, if_neg hio]
      rw [if_neg (not_not_intro (by simpa using hdmem1))]
      dsimp only
      rw [hio1]
    · intro hiod hiob hdirname
      rw [mapGet_set_other _ _ _ _ hbne]
      exact createBackup_stores_old env fs0 p old hvp hres
        (by rw [hfiles0]; exact hold) (by rw [hio0]; exact hio)
        (by rw [hio0]; exact hiod) (by rw [hio0]; exact hiob) hdirname
  constructor
  · -- writeFile
    have hens := ensureDirectory_ok st.fs (dirname p) hiodir
    obtain ⟨hw, hget, hbk⟩ := step
      { st.fs with dirs := if st.fs.dirs.contains (dirname p) then st.fs.dirs
          else st.fs.dirs ++ [dirname p] }
      rfl rfl (self_mem_dirs_extend _ _)
    have heq : writeFile env st p content true true =
        (.ok (),
         { st with
           fs := { createBackup env
                     { st.fs with dirs := if st.fs.dirs.contains (dirname p) then st.fs.dirs
                         else st.fs.dirs ++ [dirname p] } p with
                   files := mapSet (createBackup env
                     { st.fs with dirs := if st.fs.dirs.contains (dirname p) then st.fs.dirs
                         else st.fs.dirs ++ [dirname p] } p).files p content },
           contentCache := cmSet env.maxCacheSize env.nowMs st.contentCache p content none }) := by
      unfold writeFile
      simp only [hvp, hres, hsz, hens, if_true, hw]
    rw [heq]
    exact ⟨rfl, hget, hbk⟩
  · -- deleteFile
    have hio1 : (createBackup env st.fs p).ioFail = st.fs.ioFail :=
      createBackup_ioFail env st.fs p
    have hfile1 : mapGet (createBackup env st.fs p).files p = some old := by
      rw [createBackup_files_other env st.fs p p hbne2]
      exact hold
    have hul : fsUnlink (createBackup env st.fs p) p =
        .ok { createBackup env st.fs p with
              files := mapDelete (createBackup env st.fs p).files p } := by
      unfold fsUnlink
      rw [hio1, if_neg hio, hfile1]
      dsimp only
      rw [hio1]
    have heq : deleteFile env st p true =
        (.ok (),
         { st with
           fs := { createBackup env st.fs p with
                   files := mapDelete (createBackup env st.fs p).files p },
           contentCache := cmDelete st.contentCache p }) := by
      unfold deleteFile
      simp only [hvp, hres, hex, if_true, hul, not_true, if_neg, ite_false]
    rw [heq]
    refine ⟨rfl, mapGet_delete_self _ _, ?_⟩
    intro hiod hiob hdirname
    show mapGet (mapDelete (createBackup env st.fs p).files p) (backupPathOf env p) = some old
    rw [mapGet_delete_other _ _ _ hbne]
    exact createBackup_stores_old env st.fs p old hvp hres hold hio hiod hiob hdirname

/-- Concrete state for the C4 witness: one existing file `/r/a.txt` with
content `"old"`. -/
def c4st : FMState :=
  { fs := { files := [("/r/a.txt", "old")], dirs := ["/r"], ioFail := [] },
    contentCache := cmInit String,
    infoCache := cmInit FileInfo }

theorem backup_before_destructive_witness :
    (writeFile envW c4st "/r/a.txt" "new" true true).1 = .ok ()
    ∧ mapGet (writeFile envW c4st "/r/a.txt" "new" true true).2.fs.files "/r/a.txt"
        = some "new"
    ∧ mapGet (writeFile envW c4st "/r/a.txt" "new" true true).2.fs.files
        (backupPathOf envW "/r/a.txt") = some "old"
    ∧ (deleteFile envW c4st "/r/a.txt" true).1 = .ok ()
    ∧ mapGet (deleteFile envW c4st "/r/a.txt" true).2.fs.files "/r/a.txt" = none := by
  have h := backup_before_destructive envW c4st "/r/a.txt" "new" "old"
    (by rfl) (by rfl) (by decide) (by rfl) (by decide) (by decide) (by decide)
  exact ⟨h.1.1, h.1.2.1, h.1.2.2 (by decide) (by decide) (by rfl), h.2.1, h.2.2.1⟩

/-! ### Analysis orchestrator (`src/services/context-engine.ts`) -/

/-- A `ProcessingError` (operation plus details). -/
def processingError (operation details : String) : CEError :=
  { code := .PROCESSING_ERROR,
    message := "Processing failed during " ++ operation ++ ": " ++ details }

structure ProjectStructureTy where
  totalFiles : Nat
  languages : List String
  frameworks : List String
  dependencies : List (String × List String)
  exports : List (String × List String)
  functions : List (String × List String)
  classes : List (String × List String)
  deriving DecidableEq

structure ProjectMetadataTy where
  name : String
  projType : String
  version : String
  description : String
  dependencies : List (String × String)
  scripts : List (String × String)
  frameworks : List String
  deriving DecidableEq

structure ProjectContext where
  projectPath : String
  timestamp : String
  files : List (String × FileInfo)
  structure' : ProjectStructureTy
  metadata : ProjectMetadataTy
  deriving DecidableEq

structure SearchMatch where
  line : Option Nat
  content : Option String
  context : Option (List String)
  matchType : Option String
  name : Option String
  deriving DecidableEq

structure SearchResult where
  file : String
  language : String
  matchList : List SearchMatch
  deriving DecidableEq

/-- The orchestrator's mutable state: the FileManager state plus the
project cache.  (The `analysisCache` instance and the `watchedProjects`
set are only written, never consulted, by the modelled operations and
are omitted.) -/
structure EngineState where
  fm : FMState
  projectCache : CacheMgr ProjectContext
  deriving DecidableEq

/-- `ContextEngine.getProjectContext`: a cache-only lookup keyed by the
resolved project path; never triggers analysis. -/
def getProjectContext (env : Env) (es : EngineState) (projectPath : String) :
    Option ProjectContext × EngineState :=
  let projectKey := pathResolve env.cwd projectPath
  let r := cmGet env.nowMs es.projectCache projectKey
  (r.1, { es with projectCache := r.2 })

/-- `String.prototype.trim` (ASCII whitespace, as in the matched lines). -/
def strTrim (s : String) : String :=
  String.mk ((s.data.dropWhile (fun c => c = ' ' ∨ c = Char.ofNat 9)).reverse.dropWhile
    (fun c => c = ' ' ∨ c = Char.ofNat 9)).reverse

/-- Content-line matches of `searchInProject` for one file: line number,
trimmed line, and two lines of context either side. -/
def contentMatches (env : Env) (query : String) (caseSensitive : Bool)
    (lines : List String) : List SearchMatch :=
  (List.range lines.length).filterMap (fun lineNum =>
    match lines.get? lineNum with
    | none => none
    | some line =>
      if env.regexTest query caseSensitive line then
        some { line := some (lineNum + 1),
               content := some (strTrim line),
               context := some ((lines.take (min lines.length (lineNum + 3))).drop
                 (lineNum - 2)),
               matchType := none,
               name := none }
      else none)

/-- Structure matches of `searchInProject` for one file: function, class
and export names matching the query, tagged by kind. -/
def structureMatches (env : Env) (query : String) (caseSensitive : Bool)
    (s : CodeStructure) : List SearchMatch :=
  (s.functions.filterMap (fun item =>
    if env.regexTest query caseSensitive item then
      some { line := none, content := none, context := none,
             matchType := some "function", name := some item }
    else none))
  ++ (s.classes.filterMap (fun item =>
    if env.regexTest query caseSensitive item then
      some { line := none, content := none, context := none,
             matchType := some "class", name := some item }
    else none))
  ++ (s.exports.filterMap (fun item =>
    if env.regexTest query caseSensitive item then
      some { line := none, content := none, context := none,
             matchType := some "export", name := some item }
    else none))

/-- All matches collected for one file. -/
def searchFile (env : Env) (query : String) (caseSensitive includeStructure : Bool)
    (fileInfo : FileInfo) : List SearchMatch :=
  (if fileInfo.content ≠ "" then
    contentMatches env query caseSensitive (splitOnChar (Char.ofNat 10) fileInfo.content)
   else [])
  ++ (if includeStructure then
        structureMatches env query caseSensitive fileInfo.structure'
      else [])

/-- The per-file search loop: stops once `maxResults` files have
produced at least one match; at most 20 matches are kept per file. -/
def searchLoop (env : Env) (query : String) (caseSensitive includeStructure : Bool)
    (maxResults : Nat) (count : Nat) :
    List (String × FileInfo) → List SearchResult
  | [] => []
  | (relativePath, fileInfo) :: rest =>
    if maxResults ≤ count then []
    else
      let ms := searchFile env query caseSensitive includeStructure fileInfo
      if ms ≠ [] then
        { file := relativePath, language := fileInfo.language,
          matchList := ms.take 20 }
          :: searchLoop env query caseSensitive includeStructure maxResults (count + 1) rest
      else
        searchLoop env query caseSensitive includeStructure maxResults count rest

/-- `ContextEngine.searchInProject`: input validation, a cache-only
context lookup that fails with a `ProcessingError` ("not analyzed") when
no context is cached, then a pure scan of the cached file contents — the
filesystem is never touched. -/
def searchInProject (env : Env) (es : EngineState) (projectPath query : String)
    (caseSensitive includeStructure : Bool) (filePatterns : List String)
    (maxResults : Nat) : Except CEError (List SearchResult) × EngineState :=
  if ¬ (projectPathValid env.cwd projectPath = true
        ∧ 1 ≤ query.length ∧ query.length ≤ 1000) then
    (.error { code := .VALIDATION_ERROR, message := "Validation failed" }, es)
  else
    match getProjectContext env es projectPath with
    | (none, es1) =>
      (.error (processingError "search" "Project not analyzed. Please run analyze_project first."),
       es1)
    | (some ctx, es1) =>
      let filesToSearch :=
        if filePatterns ≠ [] then
          ctx.files.filter (fun p =>
            filePatterns.any (fun pattern => env.regexTest pattern true p.1))
        else ctx.files
      (.ok (searchLoop env query caseSensitive includeStructure maxResults 0 filesToSearch),
       es1)

/-- C5: on a project root with no cached context (a cache miss), search
fails with the "not analyzed" `ProcessingError`, does not trigger
analysis (the next lookup for that root is still a miss), touches no
other cache entry, leaves the FileManager state — and hence the
filesystem — untouched, and when the key is entirely absent the project
cache is literally unchanged. -/
theorem search_requires_prior_analysis (env : Env) (es : EngineState)
    (projectPath query : String) (caseSensitive includeStructure : Bool)
    (filePatterns : List String) (maxResults : Nat)
    (hvalid : projectPathValid env.cwd projectPath = true
      ∧ 1 ≤ query.length ∧ query.length ≤ 1000)
    (hmiss : (cmGet env.nowMs es.projectCache (pathResolve env.cwd projectPath)).1 = none) :
    (searchInProject env es projectPath query caseSensitive includeStructure
        filePatterns maxResults).1 =
      .error (processingError "search" "Project not analyzed. Please run analyze_project first.")
    ∧ (cmGet env.nowMs
        (searchInProject env es projectPath query caseSensitive includeStructure
          filePatterns maxResults).2.projectCache
        (pathResolve env.cwd projectPath)).1 = none
    ∧ (searchInProject env es projectPath query caseSensitive includeStructure
        filePatterns maxResults).2.fm = es.fm
    ∧ (∀ k, k ≠ pathResolve env.cwd projectPath →
        mapGet (searchInProject env es projectPath query caseSensitive includeStructure
          filePatterns maxResults).2.projectCache.cache k
          = mapGet es.projectCache.cache k)
    ∧ (mapGet es.projectCache.cache (pathResolve env.cwd projectPath) = none →
        (searchInProject env es projectPath query caseSensitive includeStructure
          filePatterns maxResults).2 = es) := by
  have hs : searchInProject env es projectPath query caseSensitive includeStructure
      filePatterns maxResults =
      (.error (processingError "search" "Project not analyzed. Please run analyze_project first."),
       { es with projectCache := (cmGet env.nowMs es.projectCache
           (pathResolve env.cwd projectPath)).2 }) := by
    unfold searchInProject
    rw [if_neg (not_not_intro hvalid)]
    unfold getProjectContext
    dsimp only
    rcases hg : cmGet env.nowMs es.projectCache (pathResolve env.cwd projectPath)
      with ⟨r, c2⟩
    rw [hg] at hmiss
    dsimp only at hmiss
    rw [hmiss]
  have hcache2 : (cmGet env.nowMs es.projectCache (pathResolve env.cwd projectPath)).2.cache
      = mapDelete es.projectCache.cache (pathResolve env.cwd projectPath)
      ∨ (cmGet env.nowMs es.projectCache (pathResolve env.cwd projectPath)).2
          = es.projectCache := by
    unfold cmGet at hmiss ⊢
    rcases hg : mapGet es.projectCache.cache (pathResolve env.cwd projectPath) with - | entry
    · exact Or.inr rfl
    · rw [hg] at hmiss
      dsimp only at hmiss ⊢
      by_cases hexp : entryExpired env.nowMs entry = true
      · rw [if_pos hexp]
        exact Or.inl rfl
      · rw [if_neg hexp] at hmiss
        cases hmiss
  have cmGet_fst_of_none : ∀ (c : CacheMgr ProjectContext) (k : String),
      mapGet c.cache k = none → (cmGet env.nowMs c k).1 = none := by
    intro c k h
    unfold cmGet
    rw [h]
  rw [hs]
  refine ⟨rfl, ?_, rfl, ?_, ?_⟩
  · show (cmGet env.nowMs (cmGet env.nowMs es.projectCache
      (pathResolve env.cwd projectPath)).2 (pathResolve env.cwd projectPath)).1 = none
    rcases hcache2 with h2 | h2
    · apply cmGet_fst_of_none
      rw [h2]
      exact mapGet_delete_self _ _
    · rw [h2]
      exact hmiss
  · intro k hk
    show mapGet (cmGet env.nowMs es.projectCache (pathResolve env.cwd projectPath)).2.cache k
      = mapGet es.projectCache.cache k
    rcases hcache2 with h2 | h2
    · rw [h2, mapGet_delete_other _ _ _ hk]
    · rw [h2]
  · intro habsent
    have h2 : (cmGet env.nowMs es.projectCache (pathResolve env.cwd projectPath)).2
        = es.projectCache := by
      unfold cmGet
      rw [habsent]
    show ({ es with projectCache := (cmGet env.nowMs es.projectCache
        (pathResolve env.cwd projectPath)).2 } : EngineState) = es
    rw [h2]

/-- The external Language Analyzer collaborator: both extractors may
throw (modelled as `Except`). -/
structure LangAnalyzer where
  extractDependencies : String → String → Except String (List String)
  extractCodeStructure : String → String → Except String CodeStructure

/-- `ContextEngine.analyzeFile`: build a `FileInfo` via `getFileInfo`,
then fill in dependencies and structure from the Language Analyzer; any
failure (including a `getFileInfo` throw) is caught and yields `null`. -/
def analyzeFile (env : Env) (la : LangAnalyzer) (st : FMState)
    (filePath _projectRoot : String) : Option FileInfo × FMState :=
  match getFileInfo env st filePath with
  | (.error _, st1) => (none, st1)
  | (.ok none, st1) => (none, st1)
  | (.ok (some fi), st1) =>
    match la.extractDependencies fi.content fi.language with
    | .error _ => (none, st1)
    | .ok deps =>
      match la.extractCodeStructure fi.content fi.language with
      | .error _ => (none, st1)
      | .ok structure2 =>
        (some { fi with dependencies := deps, structure' := structure2 }, st1)

/-- The file-analysis loop of `analyzeProject`: each file is analyzed and,
on success, inserted into the `fileInfoMap` under its project-relative
path; a `null`/failed analysis is skipped.  The source runs this in
batches of 10 concurrent tasks with a barrier between batches; each task
writes only its own key, so the resulting map and FileManager state are
those of the in-order sequential run modelled here. -/
def processFiles (env : Env) (la : LangAnalyzer) (projectRoot : String) :
    FMState → List (String × FileInfo) → List String →
      List (String × FileInfo) × FMState
  | st, acc, [] => (acc, st)
  | st, acc, f :: rest =>
    match analyzeFile env la st f projectRoot with
    | (some fi, st1) =>
      processFiles env la projectRoot st1
        (mapSet acc (pathRelative env.cwd projectRoot f) fi) rest
    | (none, st1) => processFiles env la projectRoot st1 acc rest

/-- The loop processes a concatenation sequentially: the second part
starts from exactly the map and state the first part left behind,
whether or not files in the first part failed. -/
theorem processFiles_cons (env : Env) (la : LangAnalyzer) (projectRoot : String)
    (st : FMState) (acc : List (String × FileInfo)) (f : String) (rest : List String) :
    processFiles env la projectRoot st acc (f :: rest) =
      match analyzeFile env la st f projectRoot with
      | (some fi, st1) => processFiles env la projectRoot st1
          (mapSet acc (pathRelative env.cwd projectRoot f) fi) rest
      | (none, st1) => processFiles env la projectRoot st1 acc rest := rfl

theorem processFiles_append (env : Env) (la : LangAnalyzer) (projectRoot : String)
    (l1 l2 : List String) (st : FMState) (acc : List (String × FileInfo)) :
    processFiles env la projectRoot st acc (l1 ++ l2) =
      processFiles env la projectRoot
        (processFiles env la projectRoot st acc l1).2
        (processFiles env la projectRoot st acc l1).1 l2 := by
  induction l1 generalizing st acc with
  | nil => rfl
  | cons f rest ih =>
    rw [List.cons_append, processFiles_cons, processFiles_cons]
    rcases ha : analyzeFile env la st f projectRoot with ⟨r, st1⟩
    cases r with
    | none =>
      dsimp only
      exact ih st1 acc
    | some fi =>
      dsimp only
      exact ih st1 _

/-- A key not produced by any file in the list is left exactly as the
accumulator had it. -/
theorem processFiles_get_fresh (env : Env) (la : LangAnalyzer) (projectRoot : String)
    (files : List String) (st : FMState) (acc : List (String × FileInfo)) (k : String)
    (hk : ¬ k ∈ files.map (pathRelative env.cwd projectRoot)) :
    mapGet (processFiles env la projectRoot st acc files).1 k = mapGet acc k := by
  induction files generalizing st acc with
  | nil => rfl
  | cons f rest ih =>
    have hkf : k ≠ pathRelative env.cwd projectRoot f := by
      intro hc
      exact hk (by rw [List.map_cons]; exact List.mem_cons.mpr (Or.inl hc))
    have hkrest : ¬ k ∈ rest.map (pathRelative env.cwd projectRoot) := by
      intro hc
      exact hk (by rw [List.map_cons]; exact List.mem_cons.mpr (Or.inr hc))
    rw [processFiles_cons]
    rcases ha : analyzeFile env la st f projectRoot with ⟨r, st1⟩
    cases r with
    | none =>
      dsimp only
      exact ih st1 acc hkrest
    | some fi =>
      dsimp only
      rw [ih st1 _ hkrest]
      exact mapGet_set_other _ _ _ _ hkf

/-- C6: the batch analysis loop is total (a per-file failure can never
raise out of it), it attempts every file in order (concatenation runs
sequentially through the intermediate state), and for each file: a
failed analysis leaves its relative path out of the resulting files map
while a successful analysis puts its `FileInfo` in the map. -/
theorem analyze_batch_isolation (env : Env) (la : LangAnalyzer)
    (projectRoot : String) (st : FMState) (files : List String)
    (hnd : (files.map (pathRelative env.cwd projectRoot)).Nodup) :
    (∀ (l1 l2 : List String) (st0 : FMState) (acc : List (String × FileInfo)),
      processFiles env la projectRoot st0 acc (l1 ++ l2) =
        processFiles env la projectRoot
          (processFiles env la projectRoot st0 acc l1).2
          (processFiles env la projectRoot st0 acc l1).1 l2)
    ∧ (∀ (i : Nat) (h : i < files.length),
        ((analyzeFile env la (processFiles env la projectRoot st [] (files.take i)).2
            (files.get ⟨i, h⟩) projectRoot).1 = none →
          mapGet (processFiles env la projectRoot st [] files).1
            (pathRelative env.cwd projectRoot (files.get ⟨i, h⟩)) = none)
        ∧ (∀ info : FileInfo,
            (analyzeFile env la (processFiles env la projectRoot st [] (files.take i)).2
              (files.get ⟨i, h⟩) projectRoot).1 = some info →
            mapGet (processFiles env la projectRoot st [] files).1
              (pathRelative env.cwd projectRoot (files.get ⟨i, h⟩)) = some info)) := by
  refine ⟨fun l1 l2 st0 acc => processFiles_append env la projectRoot l1 l2 st0 acc, ?_⟩
  intro i h
  have hsplit : files = files.take i ++ files.get ⟨i, h⟩ :: files.drop (i + 1) := by
    rw [List.get_cons_drop]
    exact (List.take_append_drop i files).symm
  have hndparts : ¬ pathRelative env.cwd projectRoot (files.get ⟨i, h⟩)
        ∈ (files.take i).map (pathRelative env.cwd projectRoot)
      ∧ ¬ pathRelative env.cwd projectRoot (files.get ⟨i, h⟩)
        ∈ (files.drop (i + 1)).map (pathRelative env.cwd projectRoot) := by
    have h2 := hnd
    rw [hsplit, List.map_append, List.map_cons, List.nodup_append] at h2
    obtain ⟨h3, h4, h5⟩ := h2
    rw [List.nodup_cons] at h4
    constructor
    · intro hc
      exact h5 hc (List.mem_cons_self _ _)
    · exact h4.1
  have hrun : processFiles env la projectRoot st [] files =
      processFiles env la projectRoot
        (processFiles env la projectRoot st [] (files.take i)).2
        (processFiles env la projectRoot st [] (files.take i)).1
        (files.get ⟨i, h⟩ :: files.drop (i + 1)) := by
    conv =>
      lhs
      rw [hsplit]
    exact processFiles_append env la projectRoot _ _ st []
  constructor
  · intro hnone
    rw [hrun, processFiles_cons]
    rcases ha : analyzeFile env la
        (processFiles env la projectRoot st [] (files.take i)).2
        (files.get ⟨i, h⟩) projectRoot with ⟨r, st1⟩
    rw [ha] at hnone
    dsimp only at hnone
    rw [hnone]
    dsimp only
    rw [processFiles_get_fresh env la projectRoot _ _ _ _ hndparts.2]
    rw [processFiles_get_fresh env la projectRoot _ _ _ _ hndparts.1]
    rfl
  · intro info hsome
    rw [hrun, processFiles_cons]
    rcases ha : analyzeFile env la
        (processFiles env la projectRoot st [] (files.take i)).2
        (files.get ⟨i, h⟩) projectRoot with ⟨r, st1⟩
    rw [ha] at hsome
    dsimp only at hsome
    rw [hsome]
    dsimp only
    rw [processFiles_get_fresh env la projectRoot _ _ _ _ hndparts.2]
    exact mapGet_set_self _ _ _

/-- Concrete filesystem for the C6 witness: ten analyzable files under
`/r`; file #5's content makes the Language Analyzer throw. -/
def c6fs : FSState :=
  { files := [("/r/f1.ts", "c1"), ("/r/f2.ts", "c2"), ("/r/f3.ts", "c3"),
              ("/r/f4.ts", "c4"), ("/r/f5.ts", "bad"), ("/r/f6.ts", "c6"),
              ("/r/f7.ts", "c7"), ("/r/f8.ts", "c8"), ("/r/f9.ts", "c9"),
              ("/r/f10.ts", "ca")],
    dirs := ["/r"], ioFail := [] }

def c6st : FMState :=
  { fs := c6fs, contentCache := cmInit String, infoCache := cmInit FileInfo }

def c6la : LangAnalyzer :=
  { extractDependencies := fun content _ =>
      if content = "bad" then .error "analyzer blew up" else .ok [],
    extractCodeStructure := fun _ _ => .ok emptyStructure }

def c6files : List String :=
  ["/r/f1.ts", "/r/f2.ts", "/r/f3.ts", "/r/f4.ts", "/r/f5.ts",
   "/r/f6.ts", "/r/f7.ts", "/r/f8.ts", "/r/f9.ts", "/r/f10.ts"]

def c6info1 : FileInfo :=
  { path := "f1.ts", absolutePath := "/r/f1.ts", language := "typescript",
    size := 2, lines := 1, hash := "c1", dependencies := [],
    structure' := emptyStructure, content := "c1" }

set_option maxHeartbeats 2000000 in
theorem analyze_batch_isolation_witness :
    (c6files.map (pathRelative envW.cwd "/r")).Nodup
    ∧ mapGet (processFiles envW c6la "/r" c6st [] c6files).1 "f5.ts" = none
    ∧ mapGet (processFiles envW c6la "/r" c6st [] c6files).1 "f1.ts" = some c6info1 := by
  have h := analyze_batch_isolation envW c6la "/r" c6st c6files (by decide)
  refine ⟨by decide, ?_, ?_⟩
  · exact (h.2 4 (by decide)).1 (by rfl)
  · exact (h.2 0 (by decide)).2 c6info1 (by rfl)

theorem search_requires_prior_analysis_witness :
    (projectPathValid envW.cwd "/p" = true ∧ 1 ≤ ("foo" : String).length
      ∧ ("foo" : String).length ≤ 1000)
    ∧ (searchInProject envW { fm := emptyFM, projectCache := cmInit ProjectContext }
        "/p" "foo" false true [] 100).1 =
      .error (processingError "search" "Project not analyzed. Please run analyze_project first.")
    ∧ (searchInProject envW { fm := emptyFM, projectCache := cmInit ProjectContext }
        "/p" "foo" false true [] 100).2 =
      { fm := emptyFM, projectCache := cmInit ProjectContext } := by
  have h := search_requires_prior_analysis envW
    { fm := emptyFM, projectCache := cmInit ProjectContext }
    "/p" "foo" false true [] 100 (by exact ⟨by rfl, by decide, by decide⟩) (by rfl)
  exact ⟨⟨by rfl, by decide, by decide⟩, h.1, h.2.2.2.2 (by rfl)⟩

/-! ### Multi-file edits (`ContextEngine.editMultipleFiles`, claim C1) -/

inductive FileAction where
  | create
  | update
  | delete
  deriving DecidableEq

/-- `FileChange` (the `action` enum is typed, so the loop's
unknown-action `default` branch is unreachable in the model). -/
structure FileChange where
  filePath : String
  action : FileAction
  content : Option String
  backup : Option Bool
  deriving DecidableEq

structure EditResult where
  file : String
  status : String
  error : Option String
  deriving DecidableEq

/-- `FileManager.validateProjectBoundaries` (the model's path functions
never throw, so the `catch => false` branch is unreachable). -/
def validateProjectBoundaries (env : Env) (filePath projectRoot : String) : Bool :=
  isPathWithinDirectory env.cwd filePath projectRoot

/-- `EditMultipleFilesSchema`: a valid project path and 1–50 changes,
each with a relative, traversal-free file path. -/
def editInputValid (cwd projectPath : String) (changes : List FileChange) : Bool :=
  projectPathValid cwd projectPath
    && decide (1 ≤ changes.length) && decide (changes.length ≤ 50)
    && changes.all (fun c => filePathValid c.filePath)

/-- The body of the per-change `try` in `editMultipleFiles`: resolve the
path, check the project boundary, dispatch on the action; any failure is
caught and becomes an `error` result for this change only. -/
def applyChange (env : Env) (projectPath : String) (st : FMState)
    (change : FileChange) : EditResult × FMState :=
  let fullPath := pathResolve2 env.cwd projectPath change.filePath
  if ¬ validateProjectBoundaries env fullPath projectPath = true then
    ({ file := change.filePath, status := "error",
       error := some ("File path is outside project boundaries: " ++ change.filePath) },
     st)
  else
    match change.action with
    | .create =>
      match writeFile env st fullPath (change.content.getD "")
          (change.backup ≠ some false) true with
      | (.ok _, st1) =>
        ({ file := change.filePath, status := "created", error := none }, st1)
      | (.error e, st1) =>
        ({ file := change.filePath, status := "error", error := some e.message }, st1)
    | .update =>
      match writeFile env st fullPath (change.content.getD "")
          (change.backup ≠ some false) false with
      | (.ok _, st1) =>
        ({ file := change.filePath, status := "updated", error := none }, st1)
      | (.error e, st1) =>
        ({ file := change.filePath, status := "error", error := some e.message }, st1)
    | .delete =>
      match deleteFile env st fullPath (change.backup ≠ some false) with
      | (.ok _, st1) =>
        ({ file := change.filePath, status := "deleted", error := none }, st1)
      | (.error e, st1) =>
        ({ file := change.filePath, status := "error", error := some e.message }, st1)

/-- The sequential change loop: one `EditResult` per change, in order,
each change applied to the state the previous ones left behind. -/
def applyChanges (env : Env) (projectPath : String) :
    FMState → List FileChange → List EditResult × FMState
  | st, [] => ([], st)
  | st, c :: rest =>
    let r := applyChange env projectPath st c
    let r2 := applyChanges env projectPath r.2 rest
    (r.1 :: r2.1, r2.2)

/-- `ContextEngine.editMultipleFiles`: batch input validation, the
sequential per-change loop, then unconditional deletion of the cached
project context. -/
def editMultipleFiles (env : Env) (es : EngineState) (projectPath : String)
    (changes : List FileChange) : Except CEError (List EditResult) × EngineState :=
  if ¬ editInputValid env.cwd projectPath changes = true then
    (.error { code := .VALIDATION_ERROR, message := "Validation failed" }, es)
  else
    let r := applyChanges env projectPath es.fm changes
    (.ok r.1,
     { fm := r.2,
       projectCache := cmDelete es.projectCache (pathResolve env.cwd projectPath) })

theorem applyChanges_cons (env : Env) (projectPath : String) (st : FMState)
    (c : FileChange) (rest : List FileChange) :
    applyChanges env projectPath st (c :: rest) =
      ((applyChange env projectPath st c).1
         :: (applyChanges env projectPath (applyChange env projectPath st c).2 rest).1,
       (applyChanges env projectPath (applyChange env projectPath st c).2 rest).2) := rfl

theorem applyChanges_length (env : Env) (projectPath : String) (st : FMState)
    (cs : List FileChange) :
    (applyChanges env projectPath st cs).1.length = cs.length := by
  induction cs generalizing st with
  | nil => rfl
  | cons c rest ih =>
    rw [applyChanges_cons]
    show ((applyChange env projectPath st c).1
      :: (applyChanges env projectPath (applyChange env projectPath st c).2 rest).1).length
      = (c :: rest).length
    rw [List.length_cons, List.length_cons, ih]

/-- The change loop runs a concatenation sequentially: the second part is
applied to the state the first part produced, and the result lists
concatenate — already-applied changes are never rolled back and a
failure in the first part does not stop the second. -/
theorem applyChanges_append (env : Env) (projectPath : String) (st : FMState)
    (l1 l2 : List FileChange) :
    applyChanges env projectPath st (l1 ++ l2) =
      ((applyChanges env projectPath st l1).1
         ++ (applyChanges env projectPath (applyChanges env projectPath st l1).2 l2).1,
       (applyChanges env projectPath (applyChanges env projectPath st l1).2 l2).2) := by
  induction l1 generalizing st with
  | nil => rfl
  | cons c rest ih =>
    rw [List.cons_append, applyChanges_cons, ih, applyChanges_cons]
    rw [List.cons_append]

/-- Every branch of `applyChange` reports the change's own file path. -/
theorem applyChange_file (env : Env) (projectPath : String) (st : FMState)
    (c : FileChange) : (applyChange env projectPath st c).1.file = c.filePath := by
  rcases c with ⟨fp, act, cont, bk⟩
  unfold applyChange
  dsimp only
  split
  · rfl
  · cases act with
    | create =>
      dsimp only
      rcases hw : writeFile env st (pathResolve2 env.cwd projectPath fp) (cont.getD "")
        (decide (¬ bk = some false)) true with ⟨r, st1⟩
      cases r with
      | ok a => rfl
      | error e => rfl
    | update =>
      dsimp only
      rcases hw : writeFile env st (pathResolve2 env.cwd projectPath fp) (cont.getD "")
        (decide (¬ bk = some false)) false with ⟨r, st1⟩
      cases r with
      | ok a => rfl
      | error e => rfl
    | delete =>
      dsimp only
      rcases hw : deleteFile env st (pathResolve2 env.cwd projectPath fp)
        (decide (¬ bk = some false)) with ⟨r, st1⟩
      cases r with
      | ok a => rfl
      | error e => rfl

/-- The i-th result is the result of applying the i-th change to the
state produced by the first i changes. -/
theorem applyChanges_get (env : Env) (projectPath : String) (st : FMState)
    (changes : List FileChange) (i : Nat)
    (h1 : i < (applyChanges env projectPath st changes).1.length)
    (h2 : i < changes.length) :
    (applyChanges env projectPath st changes).1.get ⟨i, h1⟩ =
      (applyChange env projectPath
        (applyChanges env projectPath st (changes.take i)).2
        (changes.get ⟨i, h2⟩)).1 := by
  have hsplit : changes = changes.take i ++ changes.get ⟨i, h2⟩ :: changes.drop (i + 1) := by
    rw [List.get_cons_drop]
    exact (List.take_append_drop i changes).symm
  have hlen1 : (applyChanges env projectPath st (changes.take i)).1.length = i := by
    rw [applyChanges_length, List.length_take]
    exact Nat.min_eq_left (Nat.le_of_lt h2)
  have hR : (applyChanges env projectPath st changes).1
      = (applyChanges env projectPath st (changes.take i)).1
        ++ (applyChange env projectPath
             (applyChanges env projectPath st (changes.take i)).2
             (changes.get ⟨i, h2⟩)).1
        :: (applyChanges env projectPath
             (applyChange env projectPath
               (applyChanges env projectPath st (changes.take i)).2
               (changes.get ⟨i, h2⟩)).2
             (changes.drop (i + 1))).1 := by
    conv =>
      lhs
      rw [hsplit]
    rw [applyChanges_append, applyChanges_cons]
  have hle : (applyChanges env projectPath st (changes.take i)).1.length ≤ i := by
    rw [hlen1]
  rw [List.get_of_eq hR ⟨i, h1⟩, List.get_eq_getElem, List.getElem_append_right hle]
  simp [hlen1]

/-- C1 (amended): for every project root and non-empty change list that
passes the batch input validation (1–50 changes, each path relative and
traversal-free), `editMultipleFiles` applies the changes sequentially in
the caller-supplied order (a concatenation runs through the intermediate
state, with no rollback of already-applied changes), returns exactly one
`EditResult` per change in the same order, each naming its change's file
and equal to the outcome of applying that change to the state left by
the previous changes (a failure yields an `error` result for that file
only while the remaining changes are still attempted), and on completion
the project cache entry for the resolved root is absent regardless of
individual failures. -/
theorem editMultipleFiles_spec (env : Env) (es : EngineState)
    (projectPath : String) (changes : List FileChange)
    (hv : editInputValid env.cwd projectPath changes = true) :
    (editMultipleFiles env es projectPath changes).1 =
      .ok (applyChanges env projectPath es.fm changes).1
    ∧ (applyChanges env projectPath es.fm changes).1.length = changes.length
    ∧ (∀ (i : Nat) (h1 : i < (applyChanges env projectPath es.fm changes).1.length)
        (h2 : i < changes.length),
        ((applyChanges env projectPath es.fm changes).1.get ⟨i, h1⟩).file
          = (changes.get ⟨i, h2⟩).filePath
        ∧ (applyChanges env projectPath es.fm changes).1.get ⟨i, h1⟩ =
          (applyChange env projectPath
            (applyChanges env projectPath es.fm (changes.take i)).2
            (changes.get ⟨i, h2⟩)).1)
    ∧ (∀ (l1 l2 : List FileChange) (st0 : FMState),
        applyChanges env projectPath st0 (l1 ++ l2) =
          ((applyChanges env projectPath st0 l1).1
             ++ (applyChanges env projectPath
                  (applyChanges env projectPath st0 l1).2 l2).1,
           (applyChanges env projectPath
             (applyChanges env projectPath st0 l1).2 l2).2))
    ∧ mapGet (editMultipleFiles env es projectPath changes).2.projectCache.cache
        (pathResolve env.cwd projectPath) = none := by
  have heq : editMultipleFiles env es projectPath changes =
      (.ok (applyChanges env projectPath es.fm changes).1,
       { fm := (applyChanges env projectPath es.fm changes).2,
         projectCache := cmDelete es.projectCache (pathResolve env.cwd projectPath) }) := by
    unfold editMultipleFiles
    rw [if_neg (not_not_intro hv)]
  refine ⟨by rw [heq], applyChanges_length env projectPath es.fm changes, ?_, ?_, ?_⟩
  · intro i h1 h2
    refine ⟨?_, applyChanges_get env projectPath es.fm changes i h1 h2⟩
    rw [applyChanges_get env projectPath es.fm changes i h1 h2]
    exact applyChange_file env projectPath _ _
  · intro l1 l2 st0
    exact applyChanges_append env projectPath st0 l1 l2
  · rw [heq]
    exact mapGet_delete_self _ _

/-- An (empty) cached project context used by the C1 scenarios. -/
def c1ctx : ProjectContext :=
  { projectPath := "/p", timestamp := "t", files := [],
    structure' := { totalFiles := 0, languages := [], frameworks := [],
                    dependencies := [], exports := [], functions := [], classes := [] },
    metadata := { name := "p", projType := "unknown", version := "0.0.0",
                  description := "", dependencies := [], scripts := [],
                  frameworks := [] } }

def c1entry : CacheEntry ProjectContext :=
  { data := c1ctx, timestamp := 0, expiresAt := none }

/-- Engine state with a cached context for root `/p`. -/
def c1es : EngineState :=
  { fm := emptyFM,
    projectCache := { cache := [("/p", c1entry)], accessOrder := [("/p", 1)],
                      accessCounter := 1 } }

def c1badChange : FileChange :=
  { filePath := "../evil", action := .create, content := some "x", backup := none }

/-- C1 counterexample: on the non-empty change list `[create "../evil"]`
the batch input validation throws before applying anything, so
`editMultipleFiles` returns no per-change `EditResult` at all (refuting
"exactly one EditResult per change" with an `Error` entry for the bad
file), and the cached project context for the root is still present
afterwards (refuting "on completion the cache entry is absent"). -/
theorem editMultipleFiles_counterexample :
    ([c1badChange] : List FileChange).length = 1
    ∧ editMultipleFiles envW c1es "/p" [c1badChange] =
        (.error { code := .VALIDATION_ERROR, message := "Validation failed" }, c1es)
    ∧ mapGet (editMultipleFiles envW c1es "/p" [c1badChange]).2.projectCache.cache
        (pathResolve envW.cwd "/p") = some c1entry :=
  ⟨rfl, by rfl, by rfl⟩

/-- Filesystem and engine state for the C1 witness: existing root
directory `/p` and a cached context for it. -/
def c1st : FMState :=
  { fs := { files := [], dirs := ["/p"], ioFail := [] },
    contentCache := cmInit String, infoCache := cmInit FileInfo }

def c1es2 : EngineState :=
  { fm := c1st,
    projectCache := { cache := [("/p", c1entry)], accessOrder := [("/p", 1)],
                      accessCounter := 1 } }

/-- `[create a.ts, update sub/b.ts (its directory does not exist),
create c.ts]` — the middle change fails, the others succeed. -/
def c1changes : List FileChange :=
  [{ filePath := "a.ts", action := .create, content := some "A", backup := none },
   { filePath := "sub/b.ts", action := .update, content := some "B", backup := none },
   { filePath := "c.ts", action := .create, content := some "C", backup := none }]

theorem editMultipleFiles_spec_witness :
    editInputValid envW.cwd "/p" c1changes = true
    ∧ (editMultipleFiles envW c1es2 "/p" c1changes).1 =
        .ok (applyChanges envW "/p" c1es2.fm c1changes).1
    ∧ (applyChanges envW "/p" c1es2.fm c1changes).1.length = c1changes.length
    ∧ mapGet (editMultipleFiles envW c1es2 "/p" c1changes).2.projectCache.cache
        (pathResolve envW.cwd "/p") = none
    ∧ (applyChanges envW "/p" c1es2.fm c1changes).1.map (fun r => r.status)
        = ["created", "error", "created"]
    ∧ mapGet (editMultipleFiles envW c1es2 "/p" c1changes).2.fm.fs.files "/p/a.ts"
        = some "A"
    ∧ mapGet (editMultipleFiles envW c1es2 "/p" c1changes).2.fm.fs.files "/p/c.ts"
        = some "C" := by
  have h := editMultipleFiles_spec envW c1es2 "/p" c1changes (by decide)
  exact ⟨by decide, h.1, h.2.1, h.2.2.2.2, by rfl, by rfl, by rfl⟩

end CE
